import Mathlib

/-!
Verification development for the Fré Pathé music-video storyboard backend
(`src/main.py` and `src/services/*.py`).

The Python code is shallowly embedded: floats are modelled as exact
rationals (`ℚ`), Python dicts keyed by id strings as association lists,
`None`-able strings as `String` with `""` playing the role of the falsy
values (`None` and `""` behave identically in every modelled code path,
which only ever tests truthiness), fallible endpoints as `Except`, and the
side-effecting FAL upload step as an explicit function argument
`upload : String → Option String` (`none` models a missing local file or a
failed upload, in which case the code appends nothing).

`round(x, n)` from Python is modelled as `⌊x·10^n + 1/2⌋/10^n`; Python uses
ties-to-even while this model uses ties-up, but no value appearing in any
theorem below sits at a tie.  Python's stable `list.sort(key=...)` is
modelled by `List.insertionSort` on the same key, which is stable in the
same sense (equal keys keep their relative order).
-/

namespace FrePathe

/-- Python `round(q, 3)`: round to 3 decimal places (used by `build_beat_grid`
in `src/services/audio_service.py` when storing beat times). -/
def round3 (q : ℚ) : ℚ := ((⌊q * 1000 + 1/2⌋ : ℤ) : ℚ) / 1000

/-- Python `round(q, 4)`: round to 4 decimal places (used by cost tracking in
`src/services/config.py`). -/
def round4 (q : ℚ) : ℚ := ((⌊q * 10000 + 1/2⌋ : ℤ) : ℚ) / 10000

/-- Python `str.strip()`: drop leading and trailing whitespace. -/
def pyStrip (s : String) : String :=
  ⟨((s.data.dropWhile Char.isWhitespace).reverse.dropWhile Char.isWhitespace).reverse⟩

/-- Python `url.startswith("/renders/")`, via the character list of the string. -/
def startsWithRenders (s : String) : Bool := "/renders/".data.isPrefixOf s.data

/-- Argument to `build_beat_grid` as received from Python callers: `None`, a
number, or a truthy non-numeric value on which `float()` raises (caught by the
`except` clause of the source). -/
inductive NumArg where
  | noneV
  | num (q : ℚ)
  | nonNumeric
deriving DecidableEq, Repr

/-- Beat grid returned by `build_beat_grid` (`src/services/audio_service.py`,
lines 88-129). -/
structure BeatGrid where
  beats : List ℚ
  bars : List ℚ
  downbeats : List ℚ
  total_beats : ℕ
  total_bars : ℕ
deriving DecidableEq, Repr

/-- Effective `(duration_sec, bpm)` pair after the guarded conversions at the
top of `build_beat_grid`:
`duration_sec = float(duration_sec) if duration_sec else 0.0` and
`bpm = float(bpm) if bpm else 120.0`, with the whole block replaced by
`(0.0, 120.0)` when `float()` raises on either truthy non-numeric argument. -/
def parseGridArgs (duration_arg bpm_arg : NumArg) : ℚ × ℚ :=
  match duration_arg, bpm_arg with
  | .nonNumeric, _ => (0, 120)
  | _, .nonNumeric => (0, 120)
  | d, b =>
    let dq : ℚ := match d with
      | .num q => q
      | _ => 0
    let bq : ℚ := match b with
      | .num q => if q = 0 then 120 else q
      | _ => 120
    (dq, bq)

/-- The `while t < duration_sec` loop of `build_beat_grid`, with explicit fuel
(the caller passes fuel strictly larger than the number of iterations).
`beat_count` is the loop counter; each iteration stores `round(t, 3)` into
`beats` and, when `beat_count % 4 == 0`, also into `bars` and `downbeats`. -/
def beatLoopF : ℕ → ℚ → ℚ → ℚ → ℕ → List ℚ × List ℚ × List ℚ
  | 0, _, _, _, _ => ([], [], [])
  | fuel + 1, duration, bd, t, beat_count =>
    if t < duration then
      let rest := beatLoopF fuel duration bd (t + bd) (beat_count + 1)
      (round3 t :: rest.1,
       (if beat_count % 4 = 0 then round3 t :: rest.2.1 else rest.2.1),
       (if beat_count % 4 = 0 then round3 t :: rest.2.2 else rest.2.2))
    else ([], [], [])

/-- `build_beat_grid(duration_sec, bpm)` from `src/services/audio_service.py`
(lines 88-129).  The fuel `⌊duration·bpm/60⌋.toNat + 2` strictly dominates the
number of loop iterations (proved in `beatLoopF_spec` / `build_beat_grid_spec`
below, which characterise the output in closed form). -/
def build_beat_grid (duration_arg bpm_arg : NumArg) : BeatGrid :=
  let p := parseGridArgs duration_arg bpm_arg
  let duration := p.1
  let bpm := p.2
  if duration ≤ 0 ∨ bpm ≤ 0 then
    { beats := [], bars := [], downbeats := [], total_beats := 0, total_bars := 0 }
  else
    let beat_duration := 60 / bpm
    let fuel := (⌊duration * bpm / 60⌋).toNat + 2
    let r := beatLoopF fuel duration beat_duration 0 0
    { beats := r.1, bars := r.2.1, downbeats := r.2.2,
      total_beats := r.1.length, total_bars := r.2.1.length }

/-- The `meta` sub-dict of `audio_dna` as touched by `update_bpm`
(`src/services/audio_service.py`, lines 405-429); `duration_sec` defaults to
`0` when missing, which the embedding bakes into the field value. -/
structure AudioMeta where
  bpm : ℚ
  bpm_source : String
  duration_sec : ℚ
deriving DecidableEq, Repr

/-- The parts of `audio_dna` read or written by `update_bpm`. -/
structure AudioDNA where
  meta : AudioMeta
  beat_grid : BeatGrid
deriving DecidableEq, Repr

/-- `update_bpm(state, new_bpm)` from `src/services/audio_service.py`
(lines 405-429): raises `ValueError` when there is no `audio_dna` or when
`new_bpm < 40 or new_bpm > 240`; otherwise sets `meta.bpm`,
`meta.bpm_source = "manual"` and rebuilds the beat grid from
`meta.duration_sec` and the new BPM. -/
def update_bpm (audio_dna : Option AudioDNA) (new_bpm : ℤ) : Except String AudioDNA :=
  match audio_dna with
  | none => .error "No audio DNA found"
  | some dna =>
    if new_bpm < 40 ∨ new_bpm > 240 then
      .error "BPM must be between 40 and 240"
    else
      .ok { meta := { dna.meta with bpm := (new_bpm : ℚ), bpm_source := "manual" },
            beat_grid := build_beat_grid (.num dna.meta.duration_sec) (.num (new_bpm : ℚ)) }

/-- `target_sequences_and_shots(duration_sec)` from
`src/services/storyboard_service.py` (lines 13-35).  The argument is
`Optional[float]`; `duration = float(duration_sec) if duration_sec else 180.0`
treats `None` and `0` as falsy and replaces them by `180.0`.  Python's
`int(duration / 20)` truncates toward zero, which on the `duration ≥ 240`
branch agrees with the floor. -/
def target_sequences_and_shots (duration_sec : Option ℚ) : ℕ × ℕ :=
  let duration : ℚ := match duration_sec with
    | some q => if q = 0 then 180 else q
    | none => 180
  let seq_count : ℕ :=
    if duration < 60 then 3
    else if duration < 120 then 5
    else if duration < 180 then 7
    else if duration < 240 then 9
    else min 12 (⌊duration / 20⌋).toNat
  (seq_count, seq_count * 6)

/-- A storyboard sequence, restricted to the fields read or written by
`repair_timeline` (`sequence_id`, `start`, `end`); the remaining fields of
`create_sequence` (label, structure_type, energy, cast, description, …) are
carried along unchanged by the modelled operations and are omitted.  The
source field `end` is a Lean keyword and is embedded as `end_`. -/
structure Sequence where
  sequence_id : String
  start : ℚ
  end_ : ℚ
deriving DecidableEq, Repr

/-- A storyboard shot, restricted to the fields read or written by the
operations under verification (`repair_timeline`, `api_tighten`,
`api_render_shot`, `build_prompt`); `structure_type`, `intent` and the
`render` subtree are carried along unchanged and are omitted.  The source
field `end` is embedded as `end_`. -/
structure Shot where
  shot_id : String
  sequence_id : String
  start : ℚ
  end_ : ℚ
  cast : List String := []
  wardrobe : List (String × String) := []
  camera_language : String := ""
  energy : ℚ := 1/2
  prompt_base : String := ""
  environment : String := ""
  symbolic_elements : List String := []
deriving DecidableEq, Repr

/-- The sequence loop of `repair_timeline` (`src/services/storyboard_service.py`,
lines 232-252).  Returns `(repaired_seqs, removed_seqs, capped_seqs)`:
a sequence starting at or past the audio end is dropped; otherwise its end is
capped to the duration; if its start then reaches its (possibly capped) end it
is dropped as well. -/
def repairSeqsLoop (actual_duration : ℚ) : List Sequence → List Sequence × List String × List String
  | [] => ([], [], [])
  | seq :: rest =>
    if seq.start ≥ actual_duration then
      let r := repairSeqsLoop actual_duration rest
      (r.1, seq.sequence_id :: r.2.1, r.2.2)
    else
      let capped := seq.end_ > actual_duration
      let seq' := if capped then { seq with end_ := actual_duration } else seq
      let addCap := fun (l : List String) => if capped then seq.sequence_id :: l else l
      if seq'.start ≥ seq'.end_ then
        let r := repairSeqsLoop actual_duration rest
        (r.1, seq.sequence_id :: r.2.1, addCap r.2.2)
      else
        let r := repairSeqsLoop actual_duration rest
        (seq' :: r.1, r.2.1, addCap r.2.2)

/-- The shot loop of `repair_timeline` (lines 259-283).  `valid_seq_ids` is the
set of ids of the kept sequences; a shot is dropped when its sequence is not
among them, when it starts at or past the audio end, or when after capping its
end it no longer has positive length. -/
def repairShotsLoop (actual_duration : ℚ) (valid_seq_ids : List String) :
    List Shot → List Shot × List String
  | [] => ([], [])
  | shot :: rest =>
    if shot.sequence_id ∉ valid_seq_ids then
      let r := repairShotsLoop actual_duration valid_seq_ids rest
      (r.1, shot.shot_id :: r.2)
    else if shot.start ≥ actual_duration then
      let r := repairShotsLoop actual_duration valid_seq_ids rest
      (r.1, shot.shot_id :: r.2)
    else
      let shot' := if shot.end_ > actual_duration then { shot with end_ := actual_duration } else shot
      if shot'.start ≥ shot'.end_ then
        let r := repairShotsLoop actual_duration valid_seq_ids rest
        (r.1, shot.shot_id :: r.2)
      else
        let r := repairShotsLoop actual_duration valid_seq_ids rest
        (shot' :: r.1, r.2)

/-- Result of `repair_timeline`: the repaired storyboard plus the statistics
dict it returns. -/
structure RepairResult where
  sequences : List Sequence
  shots : List Shot
  sequences_removed : List String
  sequences_capped : List String
  sequences_kept : ℕ
  shots_removed : List String
  shots_kept : ℕ
deriving DecidableEq, Repr

/-- `repair_timeline(state, actual_duration)` from
`src/services/storyboard_service.py` (lines 217-294). -/
def repair_timeline (actual_duration : ℚ) (sequences : List Sequence) (shots : List Shot) :
    RepairResult :=
  let rs := repairSeqsLoop actual_duration sequences
  let valid_seq_ids := rs.1.map Sequence.sequence_id
  let rh := repairShotsLoop actual_duration valid_seq_ids shots
  { sequences := rs.1, shots := rh.1,
    sequences_removed := rs.2.1, sequences_capped := rs.2.2, sequences_kept := rs.1.length,
    shots_removed := rh.2, shots_kept := rh.1.length }

/-- First pass of `api_tighten` (`src/main.py`, lines 2971-2976) on one
sequence's shots, already sorted by `start`: walking left to right, an
overlapping shot's start is pushed to the previous shot's end, and a shot
whose end then precedes its start gets `end = start + 0.1`.  The Python loop
mutates `arr[i]` in place before it is used as `prev` of step `i+1`, which the
recursion reproduces by passing the updated shot along. -/
def tightenPass1 : List Shot → List Shot
  | [] => []
  | [a] => [a]
  | a :: b :: rest =>
    let b1 := if b.start < a.end_ then { b with start := a.end_ } else b
    let b2 := if b1.end_ < b1.start then { b1 with end_ := b1.start + 1/10 } else b1
    a :: tightenPass1 (b2 :: rest)
termination_by l => l.length
decreasing_by simp only [List.length_cons]; omega

/-- Second pass of `api_tighten` (lines 2977-2980): a residual gap of at most
0.06 s between consecutive shots is closed by extending the earlier shot's end
to the later shot's start.  Only `arr[i]` is written at step `i`, and step
`i+1` reads `arr[i+1]` unmodified, so the steps are independent. -/
def tightenPass2 : List Shot → List Shot
  | [] => []
  | [a] => [a]
  | a :: b :: rest =>
    (if b.start - a.end_ ≤ 3/50 then { a with end_ := b.start } else a) :: tightenPass2 (b :: rest)

/-- Python's stable `arr.sort(key=lambda x: x["start"])`, modelled by the
stable `insertionSort` on the same key. -/
def sortShotsByStart (l : List Shot) : List Shot :=
  List.insertionSort (fun a b : Shot => a.start ≤ b.start) l

/-- Processing of one `by_seq` bucket of `api_tighten`: stable sort by start,
then the two in-place passes. -/
def tightenGroup (l : List Shot) : List Shot :=
  tightenPass2 (tightenPass1 (sortShotsByStart l))

/-- `api_tighten` (`src/main.py`, lines 2960-2983).  The Python code groups the
shots dict-of-lists style by `sequence_id`, sorts and repairs each bucket in
place, and leaves the `shots` list of the state in its original order; each
shot object carries the values written while its bucket was processed.  The
embedding reproduces this by rebuilding each shot from its processed bucket,
located by `shot_id` (shot ids are unique in every real state; theorems that
need this uniqueness state it). -/
def api_tighten (shots : List Shot) : List Shot :=
  shots.map (fun s =>
    match (tightenGroup (shots.filter (fun t => t.sequence_id = s.sequence_id))).find?
        (fun t => t.shot_id = s.shot_id) with
    | some t => t
    | none => s)

/-- A cast member, restricted to the fields read by the modelled operations
(`api_cast_delete`, the wardrobe loop of `api_render_shot`); `role`, `impact`,
`refs`, `conditioning` are carried along unchanged and are omitted. -/
structure CastMember where
  cast_id : String
  name : String
  prompt_extra : String := ""
deriving DecidableEq, Repr

/-- One `character_refs` entry (`cast_matrix.character_refs[cast_id]`),
holding the canonical full-body (`ref_a`) and close-up (`ref_b`) reference
URLs; `""` models an absent or falsy value, exactly as the code only ever
tests `refs.get("ref_a")` truthiness. -/
structure CastRefs where
  ref_a : String := ""
  ref_b : String := ""
deriving DecidableEq, Repr

/-- A `cast_matrix.scenes` entry, restricted to the `decor_refs` field, the
only one read by `api_render_shot`'s reference collection. -/
structure Scene where
  decor_refs : List String := []
deriving DecidableEq, Repr

/-- The project state slice consumed by the cast and render operations:
`project.style_lock_image`, the cast list, the storyboard, and the
`cast_matrix` (`character_refs` as an association list, `scenes` by index). -/
structure ProjectState where
  style_lock_image : String := ""
  cast : List CastMember := []
  sequences : List Sequence := []
  scenes : List Scene := []
  character_refs : List (String × CastRefs) := []
  shots : List Shot := []
deriving DecidableEq, Repr

/-- The pattern shared by every reference append of `api_render_shot`
(`src/main.py`, lines 3038-3108): an external URL is appended as is; a local
`/renders/` URL is resolved and uploaded to FAL first, and silently skipped
when the file is missing or the upload fails (modelled by `upload` returning
`none`). -/
def appendRef (upload : String → Option String) (url : String) : List String :=
  if ¬ startsWithRenders url then [url]
  else
    match upload url with
    | some u => [u]
    | none => []

/-- Reference-image collection of `api_render_shot` (`src/main.py`, lines
3034-3108), in source order: (1) the project's `style_lock_image` when set,
(2) the first `decor_refs` entry of the scene at the index of the shot's
sequence, (3) `ref_a` and `ref_b` of each of the shot's first two cast
members, whichever of them are present. -/
def collectShotRefImages (upload : String → Option String) (state : ProjectState)
    (shot : Shot) : List String :=
  let styleRefs :=
    if state.style_lock_image ≠ "" then appendRef upload state.style_lock_image else []
  let decorRefs :=
    if shot.sequence_id ≠ "" then
      match state.sequences.findIdx? (fun sq => sq.sequence_id = shot.sequence_id) with
      | some seq_idx =>
        match state.scenes[seq_idx]? with
        | some scene =>
          match scene.decor_refs.head? with
          | some dref => if dref ≠ "" then appendRef upload dref else []
          | none => []
        | none => []
      | none => []
    else []
  let castRefs :=
    (shot.cast.take 2).flatMap (fun cast_id =>
      match List.lookup cast_id state.character_refs with
      | none => []
      | some refs =>
        (if refs.ref_a ≠ "" then appendRef upload refs.ref_a else []) ++
        (if refs.ref_b ≠ "" then appendRef upload refs.ref_b else []))
  styleRefs ++ decorRefs ++ castRefs

/-- The wardrobe choice of `api_render_shot` for one cast member of a shot
(`src/main.py`, lines 3019-3032): the shot-level `wardrobe[cast_id]` entry is
preferred when present and truthy, appended as `"<name>: <stripped wardrobe>"`;
otherwise the cast member's `prompt_extra` is appended when truthy; members
missing from the cast list contribute nothing (`continue`). -/
def wardrobeFragment (cast_list : List CastMember) (wardrobe : List (String × String))
    (cast_id : String) : Option String :=
  match cast_list.find? (fun c => c.cast_id = cast_id) with
  | none => none
  | some cast_member =>
    match List.lookup cast_id wardrobe with
    | some w =>
      if w ≠ "" then some (cast_member.name ++ ": " ++ pyStrip w)
      else if cast_member.prompt_extra ≠ "" then some cast_member.prompt_extra
      else none
    | none =>
      if cast_member.prompt_extra ≠ "" then some cast_member.prompt_extra
      else none

/-- The strings appended to the render prompt by the wardrobe loop
`for cast_id in cast_ids[:2]` of `api_render_shot`, in order. -/
def wardrobeFragments (cast_list : List CastMember) (shot : Shot) : List String :=
  (shot.cast.take 2).filterMap (wardrobeFragment cast_list shot.wardrobe)

/-- `energy_tokens(energy)` from `src/services/render_service.py` (lines
600-607); `float(energy or 0.5)` maps the falsy `0` to `0.5`. -/
def energy_tokens (energy : ℚ) : List String :=
  let e := if energy = 0 then 1/2 else energy
  if e ≤ 3/10 then ["quiet", "minimal motion", "slow camera"]
  else if e ≤ 7/10 then ["steady motion", "medium intensity"]
  else ["high intensity", "aggressive motion", "dramatic lighting"]

/-- `build_prompt(state, shot)` from `src/services/render_service.py` (lines
610-624).  The style token table of `styles.py` enters as the `style_tokens`
argument (the source looks the project's `style_preset` up in that table).
The Python comprehension keeps exactly the parts whose strip is nonempty and
joins the stripped values. -/
def build_prompt (style_tokens : List String) (aspect : String) (shot : Shot) : String :=
  let parts :=
    style_tokens ++ ["aspect " ++ aspect] ++ energy_tokens shot.energy ++
    [shot.prompt_base, shot.camera_language, shot.environment] ++
    shot.symbolic_elements ++ ["no text", "no watermark", "no subtitles", "no logo"]
  String.intercalate ", " ((parts.filter (fun p => pyStrip p ≠ "")).map pyStrip)

/-- The prompt assembled by `api_render_shot` (`src/main.py`, lines 3001-3032):
`build_prompt`, then the optional stripped negative-prompt override, then the
wardrobe fragments, each appended as `f"\x7bprompt\x7d, \x7bfragment\x7d"`. -/
def api_render_shot_prompt (style_tokens : List String) (aspect : String)
    (cast_list : List CastMember) (shot : Shot) (negative_prompt : String) : String :=
  let base := build_prompt style_tokens aspect shot
  let base :=
    if pyStrip negative_prompt ≠ "" then base ++ ", " ++ pyStrip negative_prompt else base
  (wardrobeFragments cast_list shot).foldl (fun p frag => p ++ ", " ++ frag) base

/-- `api_cast_delete` (`src/main.py`, lines 1818-1836): drop the cast member
from the cast list (404 when absent), delete its `character_refs` entry, and
save.  The storyboard is not touched. -/
def api_cast_delete (state : ProjectState) (cast_id : String) : Except String ProjectState :=
  let new_cast := state.cast.filter (fun c => c.cast_id ≠ cast_id)
  if new_cast.length = state.cast.length then
    .error "Cast member not found"
  else
    .ok { state with
          cast := new_cast,
          character_refs := state.character_refs.filter (fun p => p.1 ≠ cast_id) }

/-- One entry of the cost ledger (`state["costs"]["calls"]`); the timestamp
field is omitted (never read by any modelled operation). -/
structure CostCall where
  model : String
  cost : ℚ
deriving DecidableEq, Repr

/-- The per-project cost ledger `state["costs"]`. -/
structure CostLedger where
  total : ℚ := 0
  calls : List CostCall := []
deriving DecidableEq, Repr

/-- The state part of `track_cost` (`src/services/config.py`, lines 309-333)
with the `API_COSTS` lookup already resolved into the `cost` argument:
`total = round(total + cost, 4)`, append `{model, cost: round(cost, 4)}`, and
trim `calls` to its last 100 entries when it exceeds 100. -/
def track_cost_state (ledger : CostLedger) (model : String) (cost : ℚ) : CostLedger :=
  let total' := round4 (ledger.total + cost)
  let calls' := ledger.calls ++ [{ model := model, cost := round4 cost }]
  { total := total',
    calls := if calls'.length > 100 then calls'.drop (calls'.length - 100) else calls' }

/-- The inline cost write of `api_cast_generate_canonical_refs` (`src/main.py`,
lines 1906-1911): add `editor_cost * 2` to the rounded total and append a
single entry of cost `round(editor_cost * 2, 4)`; this path performs no
trimming. -/
def canonical_refs_cost (ledger : CostLedger) (model : String) (editor_cost : ℚ) : CostLedger :=
  { total := round4 (ledger.total + editor_cost * 2),
    calls := ledger.calls ++ [{ model := model, cost := round4 (editor_cost * 2) }] }

/-- A cost-tracking operation on the project ledger. -/
inductive CostOp where
  | track (model : String) (cost : ℚ)
  | canonicalRefs (model : String) (editor_cost : ℚ)
deriving DecidableEq, Repr

/-- Apply one cost-tracking operation. -/
def applyCostOp (ledger : CostLedger) : CostOp → CostLedger
  | .track model cost => track_cost_state ledger model cost
  | .canonicalRefs model editor_cost => canonical_refs_cost ledger model editor_cost

/-- Run a sequence of cost-tracking operations from a ledger. -/
def runCostOps (ledger : CostLedger) (ops : List CostOp) : CostLedger :=
  ops.foldl applyCostOp ledger

/-! ### C6 — target sizing -/

/-- Closed form of `target_sequences_and_shots` on nonzero durations. -/
theorem target_sizing_eval (q : ℚ) (hq : q ≠ 0) :
    target_sequences_and_shots (some q) =
      (if q < 60 then (3, 18)
       else if q < 120 then (5, 30)
       else if q < 180 then (7, 42)
       else if q < 240 then (9, 54)
       else (min 12 (⌊q / 20⌋).toNat, 6 * min 12 (⌊q / 20⌋).toNat)) := by
  simp only [target_sequences_and_shots, if_neg hq]
  split_ifs <;> simp [Nat.mul_comm]

/-- On durations at least 240 the `min 12 (int(duration/20))` formula is
constantly 12. -/
theorem target_sizing_min_eq (q : ℚ) (hq : 240 ≤ q) : min 12 (⌊q / 20⌋).toNat = 12 := by
  have h12 : (12 : ℤ) ≤ ⌊q / 20⌋ := by
    rw [Int.le_floor]
    push_cast
    linarith
  have : (12 : ℕ) ≤ (⌊q / 20⌋).toNat := by
    omega
  omega

/-- The sequence count of the sizing table is monotone on nonzero durations. -/
theorem target_sizing_mono (q₁ q₂ : ℚ) (h1 : q₁ ≠ 0) (h2 : q₂ ≠ 0) (hle : q₁ ≤ q₂) :
    (target_sequences_and_shots (some q₁)).1 ≤ (target_sequences_and_shots (some q₂)).1 ∧
    (target_sequences_and_shots (some q₁)).2 ≤ (target_sequences_and_shots (some q₂)).2 := by
  rw [target_sizing_eval q₁ h1, target_sizing_eval q₂ h2]
  have hfloor : ⌊q₁ / 20⌋ ≤ ⌊q₂ / 20⌋ := Int.floor_le_floor (by linarith)
  split_ifs <;> dsimp only <;>
    first
      | (exfalso; linarith)
      | (constructor <;> omega)
      | (have h12 : (12 : ℤ) ≤ ⌊q₂ / 20⌋ := by
            rw [Int.le_floor]; push_cast; linarith
         constructor <;> omega)

/-- C6 (counterexample): the claimed table is wrong at `duration_sec = 0`.
Zero is falsy in Python, so `target_sequences_and_shots(0)` falls back to the
default duration `180.0` and returns `(9, 54)` instead of the `(3, 18)` the
claim assigns to every `duration < 60`; in particular the map is not
monotone at `0` (duration `1` yields the smaller target `(3, 18)`). -/
theorem c6_target_sizing_counterexample :
    target_sequences_and_shots (some 0) = (9, 54) ∧
    target_sequences_and_shots (some 0) ≠ (3, 18) ∧
    target_sequences_and_shots (some 1) = (3, 18) ∧
    (target_sequences_and_shots (some 1)).2 < (target_sequences_and_shots (some 0)).2 := by
  have h0 : target_sequences_and_shots (some 0) = (9, 54) := by
    norm_num [target_sequences_and_shots]
  have h1 : target_sequences_and_shots (some 1) = (3, 18) := by
    norm_num [target_sequences_and_shots]
  refine ⟨h0, by rw [h0]; decide, h1, by rw [h0, h1]; norm_num⟩

/-- C6 (amended): for every nonzero `duration_sec` the sizing table of the
claim holds exactly, with the `min(12, floor(duration/20)) × 6` formula beyond
240 s, and the result is monotone non-decreasing over nonzero durations; the
falsy inputs `None` and `0` fall back to the default duration 180 and return
`(9, 54)`. -/
theorem c6_target_sizing_amended :
    target_sequences_and_shots none = (9, 54) ∧
    target_sequences_and_shots (some 0) = (9, 54) ∧
    (∀ q : ℚ, q ≠ 0 →
      target_sequences_and_shots (some q) =
        (if q < 60 then (3, 18)
         else if q < 120 then (5, 30)
         else if q < 180 then (7, 42)
         else if q < 240 then (9, 54)
         else (min 12 (⌊q / 20⌋).toNat, 6 * min 12 (⌊q / 20⌋).toNat))) ∧
    (∀ q₁ q₂ : ℚ, q₁ ≠ 0 → q₂ ≠ 0 → q₁ ≤ q₂ →
      (target_sequences_and_shots (some q₁)).1 ≤ (target_sequences_and_shots (some q₂)).1 ∧
      (target_sequences_and_shots (some q₁)).2 ≤ (target_sequences_and_shots (some q₂)).2) := by
  refine ⟨by norm_num [target_sequences_and_shots], by norm_num [target_sequences_and_shots],
    target_sizing_eval, target_sizing_mono⟩

/-- C6 (witness): the amended theorem applied at the spec's own short-track
scenario, `duration_sec = 45`, giving 3 sequences and 18 target shots. -/
theorem c6_target_sizing_witness :
    (45 : ℚ) ≠ 0 ∧ target_sequences_and_shots (some 45) = (3, 18) := by
  constructor
  · norm_num
  · rw [c6_target_sizing_amended.2.2.1 45 (by norm_num)]
    norm_num

/-! ### C4 — manual BPM update -/

/-- An example `audio_dna` with a detected BPM of 120 over a 45-second track. -/
def exampleDNA : AudioDNA :=
  { meta := { bpm := 120, bpm_source := "librosa", duration_sec := 45 },
    beat_grid := build_beat_grid (.num 45) (.num 120) }

/-- C4 (counterexample): `update_bpm` does not clamp; at `new_bpm = 300` it
raises `ValueError` (the endpoint analogously answers 400) instead of
clamping to 240 and succeeding. -/
theorem c4_update_bpm_counterexample :
    update_bpm (some exampleDNA) 300 = .error "BPM must be between 40 and 240" ∧
    ∀ dna' : AudioDNA, update_bpm (some exampleDNA) 300 ≠ .ok dna' := by
  have h : update_bpm (some exampleDNA) 300 = .error "BPM must be between 40 and 240" := by
    simp [update_bpm]
  exact ⟨h, fun dna' hcontra => by rw [h] at hcontra; exact Except.noConfusion hcontra⟩

/-- C4 (amended): `update_bpm` on a state with `audio_dna` succeeds exactly
for `new_bpm` already inside `[40, 240]`, in which case it sets `meta.bpm` to
the value, sets `meta.bpm_source = "manual"` and rebuilds the beat grid from
`meta.duration_sec` and the new value; every out-of-range value is rejected
with an error rather than clamped. -/
theorem c4_update_bpm_amended (dna : AudioDNA) (new_bpm : ℤ)
    (h40 : 40 ≤ new_bpm) (h240 : new_bpm ≤ 240) :
    update_bpm (some dna) new_bpm =
      .ok { meta := { dna.meta with bpm := (new_bpm : ℚ), bpm_source := "manual" },
            beat_grid := build_beat_grid (.num dna.meta.duration_sec) (.num (new_bpm : ℚ)) } ∧
    (∀ bad : ℤ, bad < 40 ∨ bad > 240 →
      update_bpm (some dna) bad = .error "BPM must be between 40 and 240") := by
  constructor
  · have hcond : ¬ (new_bpm < 40 ∨ new_bpm > 240) := by omega
    simp only [update_bpm, if_neg hcond]
  · intro bad hbad
    simp only [update_bpm, if_pos hbad]

/-- C4 (witness): correcting the BPM of `exampleDNA` to 96 succeeds and
rewrites `meta` and the beat grid. -/
theorem c4_update_bpm_witness :
    (40 : ℤ) ≤ 96 ∧ (96 : ℤ) ≤ 240 ∧
    update_bpm (some exampleDNA) 96 =
      .ok { meta := { exampleDNA.meta with bpm := ((96 : ℤ) : ℚ), bpm_source := "manual" },
            beat_grid := build_beat_grid (.num exampleDNA.meta.duration_sec) (.num ((96 : ℤ) : ℚ)) } :=
  ⟨by norm_num, by norm_num,
    (c4_update_bpm_amended exampleDNA 96 (by norm_num) (by norm_num)).1⟩

/-! ### C3 — cast deletion -/

/-- Looking a key up in an association list from which every pair with that
key was filtered out finds nothing. -/
theorem lookup_filter_ne_eq_none (cast_id : String) (l : List (String × CastRefs)) :
    List.lookup cast_id (l.filter (fun p => p.1 ≠ cast_id)) = none := by
  induction l with
  | nil => rfl
  | cons p rest ih =>
    obtain ⟨a, b⟩ := p
    by_cases hp : a = cast_id
    · simp only [List.filter_cons]
      rw [if_neg (by simp [hp])]
      exact ih
    · simp only [List.filter_cons]
      rw [if_pos (by simp [hp])]
      have hne : (cast_id == a) = false := by
        simp only [beq_eq_false_iff_ne, ne_eq]
        exact fun h => hp h.symm
      simp only [List.lookup, hne]
      exact ih

/-- A shot referencing the cast member `lead_1`. -/
def exampleShotWithLead : Shot :=
  { shot_id := "seq_01_sh01", sequence_id := "seq_01", start := 0, end_ := 2,
    cast := ["lead_1"] }

/-- A state holding the cast member `lead_1`, its canonical refs, and a shot
that references it. -/
def exampleCastState : ProjectState :=
  { cast := [{ cast_id := "lead_1", name := "Alice", prompt_extra := "black suit" }],
    character_refs := [("lead_1", { ref_a := "https://cdn.example/a.png",
                                    ref_b := "https://cdn.example/b.png" })],
    shots := [exampleShotWithLead] }

/-- C3 (counterexample): deleting `lead_1` removes it from the cast list and
from `character_refs`, but the shot's `cast[]` still contains the stale
`"lead_1"` reference — the claimed stripping of shot references does not
happen. -/
theorem c3_cast_delete_counterexample :
    api_cast_delete exampleCastState "lead_1" =
      .ok { cast := [], character_refs := [], shots := [exampleShotWithLead] } ∧
    ∀ st' : ProjectState, api_cast_delete exampleCastState "lead_1" = .ok st' →
      ∃ sh ∈ st'.shots, "lead_1" ∈ sh.cast := by
  have h : api_cast_delete exampleCastState "lead_1" =
      .ok { cast := [], character_refs := [], shots := [exampleShotWithLead] } := by
    simp [api_cast_delete, exampleCastState]
  refine ⟨h, fun st' hst' => ?_⟩
  rw [h] at hst'
  obtain rfl : ({ cast := [], character_refs := [], shots := [exampleShotWithLead] }
      : ProjectState) = st' := by
    injection hst'
  exact ⟨exampleShotWithLead, by simp, by simp [exampleShotWithLead]⟩

/-- C3 (amended): a successful cast delete removes the member from the cast
list and drops its `character_refs` entry, but leaves the storyboard
untouched — every shot keeps its `cast[]` array, stale id included. -/
theorem c3_cast_delete_amended (state : ProjectState) (cast_id : String) (st' : ProjectState)
    (h : api_cast_delete state cast_id = .ok st') :
    st'.cast = state.cast.filter (fun c => c.cast_id ≠ cast_id) ∧
    List.lookup cast_id st'.character_refs = none ∧
    st'.shots = state.shots ∧
    (∀ sh ∈ state.shots, sh ∈ st'.shots) := by
  simp only [api_cast_delete] at h
  split at h
  · exact Except.noConfusion h
  · obtain rfl : ({ state with
        cast := state.cast.filter (fun c => c.cast_id ≠ cast_id),
        character_refs := state.character_refs.filter (fun p => p.1 ≠ cast_id) }
        : ProjectState) = st' := by
      injection h
    exact ⟨rfl, lookup_filter_ne_eq_none cast_id state.character_refs, rfl, fun sh hsh => hsh⟩

/-- C3 (witness): the amended theorem applied to the example state — `lead_1`
leaves the cast and `character_refs`, while the shot list survives verbatim. -/
theorem c3_cast_delete_witness :
    ({ cast := [], character_refs := [], shots := [exampleShotWithLead] }
        : ProjectState).shots = exampleCastState.shots ∧
    List.lookup "lead_1"
      ({ cast := [], character_refs := [], shots := [exampleShotWithLead] }
        : ProjectState).character_refs = none :=
  have h := c3_cast_delete_amended exampleCastState "lead_1"
    { cast := [], character_refs := [], shots := [exampleShotWithLead] }
    (by simp [api_cast_delete, exampleCastState])
  ⟨h.2.2.1, h.2.1⟩

/-! ### C5 — cost ledger invariant -/

/-- Adding a multiple of `1/10000` commutes with `round4`. -/
theorem round4_int_add (k : ℤ) (c : ℚ) :
    round4 ((k : ℚ) / 10000 + c) = (k : ℚ) / 10000 + round4 c := by
  unfold round4
  have harg : ((k : ℚ) / 10000 + c) * 10000 + 1/2 = (c * 10000 + 1/2) + (k : ℚ) := by
    ring
  rw [harg, Int.floor_add_int]
  push_cast
  ring

/-- `round4` fixes every multiple of `1/10000`. -/
theorem round4_eq_self (k : ℤ) : round4 ((k : ℚ) / 10000) = (k : ℚ) / 10000 := by
  unfold round4
  have harg : (k : ℚ) / 10000 * 10000 + 1/2 = (1/2 : ℚ) + (k : ℚ) := by ring
  rw [harg, Int.floor_add_int]
  have hhalf : ⌊(1/2 : ℚ)⌋ = 0 := by norm_num
  rw [hhalf]
  push_cast
  ring

/-- The ledger invariant maintained while no trim has happened: the running
total equals the sum of the recorded call costs and is a multiple of
`1/10000`. -/
def LedgerInv (L : CostLedger) : Prop :=
  L.total = (L.calls.map CostCall.cost).sum ∧ ∃ k : ℤ, L.total = (k : ℚ) / 10000

/-- `round4 q` is always a multiple of `1/10000`. -/
theorem round4_is_multiple (q : ℚ) : ∃ k : ℤ, round4 q = (k : ℚ) / 10000 :=
  ⟨⌊q * 10000 + 1/2⌋, rfl⟩

/-- One cost-tracking operation preserves the ledger invariant and appends
exactly one call, as long as the 100-entry cap is not yet exceeded. -/
theorem applyCostOp_inv (L : CostLedger) (op : CostOp)
    (hinv : LedgerInv L) (hlen : L.calls.length + 1 ≤ 100) :
    LedgerInv (applyCostOp L op) ∧ (applyCostOp L op).calls.length = L.calls.length + 1 := by
  obtain ⟨hsum, k, hk⟩ := hinv
  cases op with
  | track model cost =>
    have hnotrim : ¬ (L.calls ++ [({ model := model, cost := round4 cost } : CostCall)]).length > 100 := by
      simp only [List.length_append, List.length_cons, List.length_nil]
      omega
    constructor
    · constructor
      · simp only [applyCostOp, track_cost_state, if_neg hnotrim]
        rw [hk, round4_int_add]
        simp only [List.map_append, List.sum_append]
        rw [← hk, hsum]
        simp
      · simp only [applyCostOp, track_cost_state]
        rw [hk, round4_int_add]
        obtain ⟨m, hm⟩ := round4_is_multiple cost
        exact ⟨k + m, by rw [hm]; push_cast; ring⟩
    · simp only [applyCostOp, track_cost_state, if_neg hnotrim]
      simp
  | canonicalRefs model editor_cost =>
    constructor
    · constructor
      · simp only [applyCostOp, canonical_refs_cost]
        rw [hk, round4_int_add]
        simp only [List.map_append, List.sum_append]
        rw [← hk, hsum]
        simp
      · simp only [applyCostOp, canonical_refs_cost]
        rw [hk, round4_int_add]
        obtain ⟨m, hm⟩ := round4_is_multiple (editor_cost * 2)
        exact ⟨k + m, by rw [hm]; push_cast; ring⟩
    · simp only [applyCostOp, canonical_refs_cost]
      simp

/-- Running at most `100 - length` further operations keeps the invariant. -/
theorem runCostOps_inv (ops : List CostOp) :
    ∀ L : CostLedger, LedgerInv L → L.calls.length + ops.length ≤ 100 →
      LedgerInv (runCostOps L ops) ∧
      (runCostOps L ops).calls.length = L.calls.length + ops.length := by
  induction ops with
  | nil => exact fun L hinv _ => ⟨hinv, by simp [runCostOps]⟩
  | cons op ops ih =>
    intro L hinv hlen
    simp only [List.length_cons] at hlen
    have hstep := applyCostOp_inv L op hinv (by omega)
    have hrest := ih (applyCostOp L op) hstep.1 (by omega)
    have hdef : runCostOps L (op :: ops) = runCostOps (applyCostOp L op) ops := rfl
    refine ⟨by rw [hdef]; exact hrest.1, ?_⟩
    rw [hdef, hrest.2, hstep.2]
    simp only [List.length_cons]
    omega

/-- The ledger entry recorded for one nano-banana edit call (cost 0.15 USD,
per the `API_COSTS` table of `src/services/config.py`). -/
def nanoEditCall : CostCall := { model := "fal-ai/nano-banana-pro/edit", cost := 3/20 }

/-- Closed form of `n ≤ 100` identical `track_cost` calls of 0.15 USD from a
fresh ledger: no trim happens yet. -/
theorem c5_replicate_run : ∀ n : ℕ, n ≤ 100 →
    runCostOps {} (List.replicate n (CostOp.track "fal-ai/nano-banana-pro/edit" (3/20))) =
      { total := (n : ℚ) * (3/20), calls := List.replicate n nanoEditCall } := by
  have hround : round4 (3/20) = 3/20 := by
    have h : ((3 : ℚ)/20) = ((1500 : ℤ) : ℚ) / 10000 := by norm_num
    rw [h, round4_eq_self]
  intro n
  induction n with
  | zero =>
    intro _
    simp only [List.replicate_zero, Nat.cast_zero, zero_mul]
    rfl
  | succ n ih =>
    intro hn
    rw [List.replicate_succ', runCostOps, List.foldl_append]
    have hrun : List.foldl applyCostOp {}
        (List.replicate n (CostOp.track "fal-ai/nano-banana-pro/edit" (3/20))) =
        { total := (n : ℚ) * (3/20), calls := List.replicate n nanoEditCall } := ih (by omega)
    rw [hrun]
    simp only [List.foldl_cons, List.foldl_nil, applyCostOp, track_cost_state]
    have htot : round4 ((n : ℚ) * (3/20) + 3/20) = ((n : ℕ) + 1 : ℚ) * (3/20) := by
      have hmul : (n : ℚ) * (3/20) = ((1500 * n : ℤ) : ℚ) / 10000 := by push_cast; ring
      rw [hmul, round4_int_add, hround]
      push_cast
      ring
    have hcalls : List.replicate n nanoEditCall ++
        [({ model := "fal-ai/nano-banana-pro/edit", cost := round4 (3/20) } : CostCall)] =
        List.replicate (n + 1) nanoEditCall := by
      rw [hround, List.replicate_succ']
      rfl
    rw [hcalls]
    have hlen : ¬ (List.replicate (n + 1) nanoEditCall).length > 100 := by
      simp only [List.length_replicate]
      omega
    rw [if_neg hlen]
    have : ((n : ℕ) + 1 : ℚ) = ((n + 1 : ℕ) : ℚ) := by push_cast; ring
    rw [htot, this]

/-- After the 101st `track_cost` call the `calls` list is trimmed back to 100
entries while `total` keeps the full amount. -/
theorem c5_run_101 :
    runCostOps {} (List.replicate 101 (CostOp.track "fal-ai/nano-banana-pro/edit" (3/20))) =
      { total := (101 : ℚ) * (3/20), calls := List.replicate 100 nanoEditCall } := by
  have hround : round4 (3/20) = 3/20 := by
    have h : ((3 : ℚ)/20) = ((1500 : ℤ) : ℚ) / 10000 := by norm_num
    rw [h, round4_eq_self]
  have h101 : (101 : ℕ) = 100 + 1 := rfl
  rw [h101, List.replicate_succ', runCostOps, List.foldl_append]
  have hrun := c5_replicate_run 100 le_rfl
  simp only [runCostOps] at hrun
  rw [hrun]
  simp only [List.foldl_cons, List.foldl_nil, applyCostOp, track_cost_state]
  rw [show (((100 : ℕ) : ℚ)) = (100 : ℚ) by norm_num]
  have htot : round4 ((100 : ℚ) * (3/20) + 3/20) = (101 : ℚ) * (3/20) := by
    have hmul : (100 : ℚ) * (3/20) = ((150000 : ℤ) : ℚ) / 10000 := by norm_num
    rw [hmul, round4_int_add, hround]
    norm_num
  have hcalls : List.replicate 100 nanoEditCall ++
      [({ model := "fal-ai/nano-banana-pro/edit", cost := round4 (3/20) } : CostCall)] =
      List.replicate 101 nanoEditCall := by
    rw [hround, List.replicate_succ']
    rfl
  rw [hcalls]
  have hlen : (List.replicate 101 nanoEditCall).length > 100 := by
    simp only [List.length_replicate]
    omega
  rw [if_pos hlen, htot]
  simp only [List.length_replicate]
  have hdrop : (List.replicate 101 nanoEditCall).drop (101 - 100) =
      List.replicate 100 nanoEditCall := by
    have : (101 : ℕ) = 1 + 100 := rfl
    rw [this, List.replicate_add]
    simp
  rw [hdrop]

/-- C5 (counterexample): after 101 render calls of 0.15 USD each, the project
ledger's `calls` list has been trimmed to its last 100 entries while `total`
still counts all 101, so `total` exceeds the sum of the stored calls by
0.15 USD — far beyond the claimed 0.0001 tolerance. -/
theorem c5_ledger_counterexample :
    ¬ |(runCostOps {} (List.replicate 101
          (CostOp.track "fal-ai/nano-banana-pro/edit" (3/20)))).total -
        ((runCostOps {} (List.replicate 101
          (CostOp.track "fal-ai/nano-banana-pro/edit" (3/20)))).calls.map
            CostCall.cost).sum| ≤ 1/10000 := by
  rw [c5_run_101]
  simp only [List.map_replicate, List.sum_replicate, nanoEditCall, nsmul_eq_mul]
  push_cast
  rw [show (101 : ℚ) * (3/20) - 100 * (3/20) = 3/20 by ring,
    abs_of_nonneg (by norm_num : (0:ℚ) ≤ 3/20)]
  norm_num

/-- C5 (amended): the invariant `total = Σ call.cost` holds (exactly, hence
within 0.0001 USD) for every state reachable by at most 100 cost-tracking
operations from a fresh ledger; from the 101st entry on, `calls` is trimmed to
its most recent 100 entries while `total` keeps accumulating, so the invariant
fails in general. -/
theorem c5_ledger_amended (ops : List CostOp) (h : ops.length ≤ 100) :
    (runCostOps {} ops).total = ((runCostOps {} ops).calls.map CostCall.cost).sum ∧
    |(runCostOps {} ops).total - ((runCostOps {} ops).calls.map CostCall.cost).sum| ≤ 1/10000 := by
  have hinv0 : LedgerInv {} := ⟨by simp [LedgerInv], 0, by norm_num⟩
  have h2 := runCostOps_inv ops {} hinv0 (by simpa using h)
  refine ⟨h2.1.1, ?_⟩
  rw [h2.1.1]
  simp

/-- C5 (witness): one tracked call keeps the ledger exactly balanced. -/
theorem c5_ledger_witness :
    ([CostOp.track "fal-ai/nano-banana-pro" (3/20)] : List CostOp).length ≤ 100 ∧
    (runCostOps {} [CostOp.track "fal-ai/nano-banana-pro" (3/20)]).total =
      ((runCostOps {} [CostOp.track "fal-ai/nano-banana-pro" (3/20)]).calls.map
        CostCall.cost).sum :=
  ⟨by norm_num, (c5_ledger_amended [CostOp.track "fal-ai/nano-banana-pro" (3/20)] (by norm_num)).1⟩

/-! ### C7 — timeline repair -/

/-- The kept sequences of the repair loop, as a `filterMap`: a sequence
survives exactly when it starts before the audio end and, after clipping its
end to the duration, still has positive length; its end is clipped. -/
theorem repairSeqsLoop_kept (d : ℚ) (seqs : List Sequence) :
    (repairSeqsLoop d seqs).1 = seqs.filterMap (fun s =>
      if s.start ≥ d then none
      else if s.start ≥ (if s.end_ > d then d else s.end_) then none
      else some { s with end_ := if s.end_ > d then d else s.end_ }) := by
  induction seqs with
  | nil => rfl
  | cons s rest ih =>
    simp only [repairSeqsLoop, List.filterMap_cons]
    by_cases h1 : s.start ≥ d
    · simp only [if_pos h1]
      exact ih
    · simp only [if_neg h1]
      by_cases hc : s.end_ > d
      · simp only [if_pos hc]
        have hkeep : ¬ (({ s with end_ := d } : Sequence).start ≥ ({ s with end_ := d } : Sequence).end_) := h1
        simp only [if_neg hkeep, ih]
      · simp only [if_neg hc]
        by_cases h2 : s.start ≥ s.end_
        · simp only [if_pos h2]
          exact ih
        · simp only [if_neg h2, ih]

/-- The kept shots of the repair loop, as a `filterMap`: a shot survives
exactly when its sequence id is among the valid ones, it starts before the
audio end, and after clipping its end it still has positive length. -/
theorem repairShotsLoop_kept (d : ℚ) (ids : List String) (shots : List Shot) :
    (repairShotsLoop d ids shots).1 = shots.filterMap (fun sh =>
      if sh.sequence_id ∉ ids then none
      else if sh.start ≥ d then none
      else if sh.start ≥ (if sh.end_ > d then d else sh.end_) then none
      else some { sh with end_ := if sh.end_ > d then d else sh.end_ }) := by
  induction shots with
  | nil => rfl
  | cons sh rest ih =>
    simp only [repairShotsLoop, List.filterMap_cons]
    by_cases h0 : sh.sequence_id ∉ ids
    · simp only [if_pos h0]
      exact ih
    · simp only [if_neg h0]
      by_cases h1 : sh.start ≥ d
      · simp only [if_pos h1]
        exact ih
      · simp only [if_neg h1]
        by_cases hc : sh.end_ > d
        · simp only [if_pos hc]
          have hkeep : ¬ (({ sh with end_ := d } : Shot).start ≥ ({ sh with end_ := d } : Shot).end_) := h1
          simp only [if_neg hkeep, ih]
        · simp only [if_neg hc]
          by_cases h2 : sh.start ≥ sh.end_
          · simp only [if_pos h2]
            exact ih
          · simp only [if_neg h2, ih]

/-- C7 (confirmed): against a positive audio duration `d`, repair keeps
exactly the sequences that start before `d` and still have positive length
after their end is clipped to `d` (equivalently: it removes exactly those with
`start ≥ d` or with `start ≥ end` after clipping), clips every kept sequence
end to `d`; it keeps exactly the shots whose sequence id survived, whose start
is before `d`, and which keep positive length after clipping, and clips every
kept shot end to `d`.  The spec's instance — a sequence with `end = 190`
against `d = 180` is kept with `end = 180` — is the witness below. -/
theorem c7_repair_timeline (d : ℚ) (hd : 0 < d)
    (sequences : List Sequence) (shots : List Shot) :
    (repair_timeline d sequences shots).sequences = sequences.filterMap (fun s =>
      if s.start ≥ d then none
      else if s.start ≥ (if s.end_ > d then d else s.end_) then none
      else some { s with end_ := if s.end_ > d then d else s.end_ }) ∧
    (∀ s' ∈ (repair_timeline d sequences shots).sequences, s'.end_ ≤ d) ∧
    (repair_timeline d sequences shots).shots = shots.filterMap (fun sh =>
      if sh.sequence_id ∉ (repair_timeline d sequences shots).sequences.map Sequence.sequence_id
        then none
      else if sh.start ≥ d then none
      else if sh.start ≥ (if sh.end_ > d then d else sh.end_) then none
      else some { sh with end_ := if sh.end_ > d then d else sh.end_ }) ∧
    (∀ sh' ∈ (repair_timeline d sequences shots).shots, sh'.end_ ≤ d) := by
  refine ⟨repairSeqsLoop_kept d sequences, ?_, repairShotsLoop_kept d _ shots, ?_⟩
  · intro s' hs'
    rw [show (repair_timeline d sequences shots).sequences = (repairSeqsLoop d sequences).1
        from rfl, repairSeqsLoop_kept d sequences] at hs'
    obtain ⟨s, _, heq⟩ := List.mem_filterMap.mp hs'
    by_cases h1 : s.start ≥ d
    · rw [if_pos h1] at heq
      exact absurd heq (by simp)
    · rw [if_neg h1] at heq
      by_cases h2 : s.start ≥ (if s.end_ > d then d else s.end_)
      · rw [if_pos h2] at heq
        exact absurd heq (by simp)
      · rw [if_neg h2] at heq
        obtain rfl : ({ s with end_ := if s.end_ > d then d else s.end_ } : Sequence) = s' := by
          injection heq
        by_cases hc : s.end_ > d
        · simp [hc]
        · simp only [if_neg hc]
          exact le_of_not_lt hc
  · intro sh' hsh'
    rw [show (repair_timeline d sequences shots).shots =
        (repairShotsLoop d ((repairSeqsLoop d sequences).1.map Sequence.sequence_id) shots).1
        from rfl, repairShotsLoop_kept d _ shots] at hsh'
    obtain ⟨sh, _, heq⟩ := List.mem_filterMap.mp hsh'
    by_cases h0 : sh.sequence_id ∉ (repairSeqsLoop d sequences).1.map Sequence.sequence_id
    · rw [if_pos h0] at heq
      exact absurd heq (by simp)
    · rw [if_neg h0] at heq
      by_cases h1 : sh.start ≥ d
      · rw [if_pos h1] at heq
        exact absurd heq (by simp)
      · rw [if_neg h1] at heq
        by_cases h2 : sh.start ≥ (if sh.end_ > d then d else sh.end_)
        · rw [if_pos h2] at heq
          exact absurd heq (by simp)
        · rw [if_neg h2] at heq
          obtain rfl : ({ sh with end_ := if sh.end_ > d then d else sh.end_ } : Shot) = sh' := by
            injection heq
          by_cases hc : sh.end_ > d
          · simp [hc]
          · simp only [if_neg hc]
            exact le_of_not_lt hc

/-- A sequence running to 190 s, past a 180-second track. -/
def seq190 : Sequence := { sequence_id := "seq_01", start := 0, end_ := 190 }

/-- A shot of `seq190` also running to 190 s. -/
def shot190 : Shot := { shot_id := "seq_01_sh01", sequence_id := "seq_01", start := 0, end_ := 190 }

/-- C7 (witness): the repair theorem at the spec's duration-clipping scenario:
`end = 190` against `duration = 180` — the sequence and its shot are kept and
both ends are clipped to 180. -/
theorem c7_repair_timeline_witness :
    (0 : ℚ) < 180 ∧
    (repair_timeline 180 [seq190] [shot190]).sequences = [{ seq190 with end_ := 180 }] ∧
    (repair_timeline 180 [seq190] [shot190]).shots = [{ shot190 with end_ := 180 }] := by
  have h := c7_repair_timeline 180 (by norm_num) [seq190] [shot190]
  refine ⟨by norm_num, ?_, ?_⟩
  · rw [h.1]
    norm_num [seq190, List.filterMap_cons]
  · rw [h.2.2.1, h.1]
    norm_num [seq190, shot190, List.filterMap_cons]

/-! ### C9 — per-shot wardrobe preference -/

/-- C9 (confirmed): for a cast member among the shot's first two whose
shot-level wardrobe entry is present and nonempty, the wardrobe loop appends
exactly `"<name>: <stripped wardrobe>"` — that string lands in the appended
fragments of the assembled prompt — and the member's `prompt_extra` is not the
appended fragment; `prompt_extra` is appended (for any member of the shot)
only when that member's shot-level wardrobe entry is absent or empty. -/
theorem c9_wardrobe_preference (cast_list : List CastMember) (shot : Shot)
    (cast_id : String) (m : CastMember) (w : String)
    (h1 : cast_id ∈ shot.cast.take 2)
    (h2 : cast_list.find? (fun c => c.cast_id = cast_id) = some m)
    (h3 : List.lookup cast_id shot.wardrobe = some w)
    (h4 : w ≠ "") :
    wardrobeFragment cast_list shot.wardrobe cast_id = some (m.name ++ ": " ++ pyStrip w) ∧
    (m.name ++ ": " ++ pyStrip w) ∈ wardrobeFragments cast_list shot ∧
    (m.prompt_extra ≠ m.name ++ ": " ++ pyStrip w →
      wardrobeFragment cast_list shot.wardrobe cast_id ≠ some m.prompt_extra) ∧
    (∀ cast_id' m', cast_list.find? (fun c => c.cast_id = cast_id') = some m' →
      List.lookup cast_id' shot.wardrobe = none → m'.prompt_extra ≠ "" →
      wardrobeFragment cast_list shot.wardrobe cast_id' = some m'.prompt_extra) := by
  have hfrag : wardrobeFragment cast_list shot.wardrobe cast_id =
      some (m.name ++ ": " ++ pyStrip w) := by
    unfold wardrobeFragment
    rw [h2, h3]
    dsimp only
    rw [if_pos h4]
  refine ⟨hfrag, ?_, ?_, ?_⟩
  · exact List.mem_filterMap.mpr ⟨cast_id, h1, hfrag⟩
  · intro hne hcontra
    rw [hfrag] at hcontra
    exact hne (by injection hcontra with h; exact h.symm)
  · intro cast_id' m' h2' h3' hpe
    unfold wardrobeFragment
    rw [h2', h3']
    dsimp only
    rw [if_pos hpe]

/-- The cast member of the spec's wardrobe scenario: default outfit
`prompt_extra = "black suit"`. -/
def aliceSuit : CastMember := { cast_id := "lead_1", name := "Alice", prompt_extra := "black suit" }

/-- A shot whose wardrobe map overrides `lead_1` to a red coat. -/
def redCoatShot : Shot :=
  { shot_id := "seq_01_sh01", sequence_id := "seq_01", start := 0, end_ := 2,
    cast := ["lead_1"], wardrobe := [("lead_1", "red coat")] }

/-- C9 (witness): with a shot-level wardrobe `"red coat"` for `lead_1`, the
appended fragment is `"Alice: red coat"`, it appears among the prompt's
wardrobe fragments, and the default `"black suit"` is not appended. -/
theorem c9_wardrobe_preference_witness :
    wardrobeFragment [aliceSuit] redCoatShot.wardrobe "lead_1" = some "Alice: red coat" ∧
    "Alice: red coat" ∈ wardrobeFragments [aliceSuit] redCoatShot ∧
    wardrobeFragment [aliceSuit] redCoatShot.wardrobe "lead_1" ≠ some "black suit" := by
  have h := c9_wardrobe_preference [aliceSuit] redCoatShot "lead_1" aliceSuit "red coat"
    (by simp [redCoatShot]) (by simp [aliceSuit]) (by simp [redCoatShot]) (by simp)
  have hstrip : pyStrip "red coat" = "red coat" := by decide
  have hname : aliceSuit.name ++ ": " ++ pyStrip "red coat" = "Alice: red coat" := by
    rw [hstrip]
    decide
  refine ⟨hname ▸ h.1, hname ▸ h.2.1, ?_⟩
  have hne := h.2.2.1 (by rw [hname]; decide)
  exact hne

/-! ### C1 — style lock and shot renders -/

/-- A project with an external style-lock image and nothing else. -/
def styleLockState : ProjectState :=
  { style_lock_image := "https://cdn.example/style.png" }

/-- A bare shot with no sequence, cast or wardrobe. -/
def bareShot : Shot := { shot_id := "seq_01_sh01", sequence_id := "", start := 0, end_ := 2 }

/-- C1 (counterexample): with `project.style_lock_image` set, the shot-render
endpoint's reference list consists of that very URL, and the URL survives the
editor's 4-image truncation — the style lock IS handed to the img2img editor,
contradicting the claim that it never is. -/
theorem c1_style_lock_counterexample :
    collectShotRefImages (fun _ => none) styleLockState bareShot =
      ["https://cdn.example/style.png"] ∧
    "https://cdn.example/style.png" ∈
      (collectShotRefImages (fun _ => none) styleLockState bareShot).take 4 := by
  have h : collectShotRefImages (fun _ => none) styleLockState bareShot =
      ["https://cdn.example/style.png"] := by decide
  exact ⟨h, by rw [h]; simp⟩

/-- C1 (amended): whenever `project.style_lock_image` is set (to an external,
non-`/renders/` URL), `api_render_shot` places it first in the reference list
handed to the img2img editor, so it is present in the list and in any
truncation the editors apply; the style lock is used for shot renders, in
addition to cast-ref generation. -/
theorem c1_style_lock_included (upload : String → Option String)
    (state : ProjectState) (shot : Shot)
    (h1 : state.style_lock_image ≠ "")
    (h2 : startsWithRenders state.style_lock_image = false) :
    (collectShotRefImages upload state shot).head? = some state.style_lock_image ∧
    state.style_lock_image ∈ collectShotRefImages upload state shot ∧
    state.style_lock_image ∈ (collectShotRefImages upload state shot).take 4 := by
  have hstyle : (if state.style_lock_image ≠ "" then appendRef upload state.style_lock_image
      else []) = [state.style_lock_image] := by
    rw [if_pos h1]
    unfold appendRef
    rw [if_pos (by simp [h2])]
  have hform : collectShotRefImages upload state shot =
      state.style_lock_image ::
        ((if shot.sequence_id ≠ "" then
            match state.sequences.findIdx? (fun sq => sq.sequence_id = shot.sequence_id) with
            | some seq_idx =>
              match state.scenes[seq_idx]? with
              | some scene =>
                match scene.decor_refs.head? with
                | some dref => if dref ≠ "" then appendRef upload dref else []
                | none => []
              | none => []
            | none => []
          else []) ++
          (shot.cast.take 2).flatMap (fun cast_id =>
            match List.lookup cast_id state.character_refs with
            | none => []
            | some refs =>
              (if refs.ref_a ≠ "" then appendRef upload refs.ref_a else []) ++
              (if refs.ref_b ≠ "" then appendRef upload refs.ref_b else []))) := by
    unfold collectShotRefImages
    rw [hstyle]
    rfl
  rw [hform]
  exact ⟨rfl, List.mem_cons_self _ _, List.mem_cons_self _ _⟩

/-- C1 (witness): the inclusion theorem at the concrete style-locked state. -/
theorem c1_style_lock_witness :
    styleLockState.style_lock_image ≠ "" ∧
    startsWithRenders styleLockState.style_lock_image = false ∧
    styleLockState.style_lock_image ∈
      collectShotRefImages (fun _ => none) styleLockState bareShot :=
  ⟨by decide, by decide,
    (c1_style_lock_included (fun _ => none) styleLockState bareShot
      (by decide) (by decide)).2.1⟩

/-! ### C2 — cast reference selection -/

/-- A state whose single cast member `lead_1` has both canonical refs as
external URLs. -/
def bothRefsState : ProjectState :=
  { cast := [{ cast_id := "lead_1", name := "Alice" }],
    character_refs := [("lead_1", { ref_a := "https://cdn.example/a.png",
                                    ref_b := "https://cdn.example/b.png" })] }

/-- A close-up shot of `lead_1` (camera language from the spec's closeup
scenario). -/
def closeupShot : Shot :=
  { shot_id := "seq_01_sh01", sequence_id := "", start := 0, end_ := 2,
    cast := ["lead_1"], camera_language := "tight close-up on hands" }

/-- A wide shot of `lead_1`. -/
def wideShot : Shot :=
  { shot_id := "seq_01_sh02", sequence_id := "", start := 2, end_ := 4,
    cast := ["lead_1"], camera_language := "wide establishing shot" }

/-- C2 (counterexample): there is no closeup heuristic.  For the close-up
shot the renderer hands over BOTH refs — `ref_a` included, contradicting
"selects ref_b (and not ref_a)" — and for the wide shot `ref_b` is included
as well, contradicting "selects ref_a otherwise". -/
theorem c2_closeup_counterexample :
    closeupShot.camera_language = "tight close-up on hands" ∧
    collectShotRefImages (fun _ => none) bothRefsState closeupShot =
      ["https://cdn.example/a.png", "https://cdn.example/b.png"] ∧
    "https://cdn.example/a.png" ∈ collectShotRefImages (fun _ => none) bothRefsState closeupShot ∧
    "https://cdn.example/b.png" ∈ collectShotRefImages (fun _ => none) bothRefsState wideShot := by
  refine ⟨rfl, by decide, by decide, by decide⟩

/-- C2 (amended): for every shot and every cast member among its first two,
`api_render_shot` includes BOTH canonical refs — `ref_a` and `ref_b`,
whichever are present (here as external URLs) — in the reference list, with no
selection on `camera_language`: the collected list is invariant under changing
the shot's camera language. -/
theorem c2_both_refs_included (upload : String → Option String)
    (state : ProjectState) (shot : Shot) (cast_id : String) (refs : CastRefs)
    (h1 : cast_id ∈ shot.cast.take 2)
    (h2 : List.lookup cast_id state.character_refs = some refs)
    (ha : refs.ref_a ≠ "") (ha' : startsWithRenders refs.ref_a = false)
    (hb : refs.ref_b ≠ "") (hb' : startsWithRenders refs.ref_b = false) :
    refs.ref_a ∈ collectShotRefImages upload state shot ∧
    refs.ref_b ∈ collectShotRefImages upload state shot ∧
    (∀ cl : String, collectShotRefImages upload state { shot with camera_language := cl } =
      collectShotRefImages upload state shot) := by
  have hmem : ∀ u : String, u ∈
      ((if refs.ref_a ≠ "" then appendRef upload refs.ref_a else []) ++
       (if refs.ref_b ≠ "" then appendRef upload refs.ref_b else [])) →
      u ∈ collectShotRefImages upload state shot := by
    intro u hu
    unfold collectShotRefImages
    refine List.mem_append_right _ ?_
    refine List.mem_flatMap.mpr ⟨cast_id, h1, ?_⟩
    rw [h2]
    exact hu
  have hina : refs.ref_a ∈
      ((if refs.ref_a ≠ "" then appendRef upload refs.ref_a else []) ++
       (if refs.ref_b ≠ "" then appendRef upload refs.ref_b else [])) := by
    refine List.mem_append_left _ ?_
    rw [if_pos ha]
    unfold appendRef
    rw [if_pos (by simp [ha'])]
    exact List.mem_singleton.mpr rfl
  have hinb : refs.ref_b ∈
      ((if refs.ref_a ≠ "" then appendRef upload refs.ref_a else []) ++
       (if refs.ref_b ≠ "" then appendRef upload refs.ref_b else [])) := by
    refine List.mem_append_right _ ?_
    rw [if_pos hb]
    unfold appendRef
    rw [if_pos (by simp [hb'])]
    exact List.mem_singleton.mpr rfl
  exact ⟨hmem _ hina, hmem _ hinb, fun cl => rfl⟩

/-- C2 (witness): both refs of `lead_1` reach the close-up shot's reference
list. -/
theorem c2_both_refs_witness :
    "https://cdn.example/a.png" ∈
      collectShotRefImages (fun _ => none) bothRefsState closeupShot ∧
    "https://cdn.example/b.png" ∈
      collectShotRefImages (fun _ => none) bothRefsState closeupShot :=
  have h := c2_both_refs_included (fun _ => none) bothRefsState closeupShot "lead_1"
    { ref_a := "https://cdn.example/a.png", ref_b := "https://cdn.example/b.png" }
    (by decide) (by decide) (by decide) (by decide) (by decide) (by decide)
  ⟨h.1, h.2.1⟩

/-! ### C10 — beat grid -/

/-- Stepping the beat loop once shrinks the remaining iteration count,
`⌈x⌉₊ = ⌈x - 1⌉₊ + 1` for positive `x`. -/
theorem ceil_sub_one_step (x : ℚ) (hx : 0 < x) : ⌈x - 1⌉₊ + 1 = ⌈x⌉₊ := by
  have h : ∀ n : ℕ, n < ⌈x - 1⌉₊ ↔ n + 1 < ⌈x⌉₊ := by
    intro n
    rw [Nat.lt_ceil, Nat.lt_ceil]
    constructor
    · intro hlt
      push_cast
      linarith
    · intro hlt
      have : ((n : ℚ) + 1) < x := by exact_mod_cast hlt
      linarith
  have hub : ⌈x⌉₊ ≤ ⌈x - 1⌉₊ + 1 := by
    by_contra hcon
    push_neg at hcon
    exact lt_irrefl _ ((h ⌈x - 1⌉₊).mpr hcon)
  have hlb : ⌈x - 1⌉₊ + 1 ≤ ⌈x⌉₊ := by
    rcases Nat.eq_zero_or_pos ⌈x - 1⌉₊ with h0 | hpos
    · rw [h0]
      exact Nat.ceil_pos.mpr hx
    · have hk := (h (⌈x - 1⌉₊ - 1)).mp (by omega)
      omega
  omega

/-- Peeling the first index off a mapped `range`. -/
theorem range_succ_map_shift {α : Type} (M : ℕ) (f g : ℕ → α) (hfg : ∀ k, f (k + 1) = g k) :
    (List.range (M + 1)).map f = f 0 :: (List.range M).map g := by
  rw [List.range_succ_eq_map, List.map_cons, List.map_map]
  congr 1
  refine List.map_congr_left (fun k _ => ?_)
  simpa [Function.comp] using hfg k

/-- Peeling the first index off a filtered and mapped `range`. -/
theorem range_succ_filter_map_shift {α : Type} (M : ℕ) (p q : ℕ → Bool) (f g : ℕ → α)
    (hpq : ∀ k, p (k + 1) = q k) (hfg : ∀ k, f (k + 1) = g k) :
    ((List.range (M + 1)).filter p).map f =
      (if p 0 then [f 0] else []) ++ ((List.range M).filter q).map g := by
  rw [List.range_succ_eq_map, List.filter_cons]
  have hfilter : (List.filter p ((List.range M).map Nat.succ)) =
      ((List.range M).filter q).map Nat.succ := by
    rw [List.filter_map]
    congr 1
    refine List.filter_congr (fun k _ => ?_)
    simpa [Function.comp] using hpq k
  cases hp0 : p 0 with
  | true =>
    simp only [eq_self_iff_true, if_true]
    rw [List.map_cons, hfilter, List.map_map, List.singleton_append]
    congr 1
    refine List.map_congr_left (fun k _ => ?_)
    simpa [Function.comp] using hfg k
  | false =>
    simp only [Bool.false_eq_true, if_false]
    rw [hfilter, List.map_map, List.nil_append]
    refine List.map_congr_left (fun k _ => ?_)
    simpa [Function.comp] using hfg k

/-- Closed form of the fuelled beat loop: starting at time `t` with counter
`c`, and given enough fuel, it emits the rounded times `t + k·bd` for every
`k` with `t + k·bd < duration` (that is, `k < ⌈(duration - t)/bd⌉₊`), with the
bar/downbeat lists keeping exactly the indices where the counter is divisible
by 4. -/
theorem beatLoopF_spec (duration bd : ℚ) (hbd : 0 < bd) :
    ∀ (fuel : ℕ) (t : ℚ) (c : ℕ), ⌈(duration - t)/bd⌉₊ ≤ fuel →
      beatLoopF fuel duration bd t c =
        ((List.range ⌈(duration - t)/bd⌉₊).map (fun k : ℕ => round3 (t + (k : ℚ) * bd)),
         ((List.range ⌈(duration - t)/bd⌉₊).filter (fun k => (c + k) % 4 = 0)).map
           (fun k : ℕ => round3 (t + (k : ℚ) * bd)),
         ((List.range ⌈(duration - t)/bd⌉₊).filter (fun k => (c + k) % 4 = 0)).map
           (fun k : ℕ => round3 (t + (k : ℚ) * bd))) := by
  intro fuel
  induction fuel with
  | zero =>
    intro t c hM
    rw [Nat.le_zero.mp hM]
    rfl
  | succ fuel ih =>
    intro t c hM
    by_cases ht : t < duration
    · have hxpos : 0 < (duration - t)/bd := div_pos (by linarith) hbd
      have hstep : ⌈(duration - (t + bd))/bd⌉₊ + 1 = ⌈(duration - t)/bd⌉₊ := by
        have harg : (duration - (t + bd))/bd = (duration - t)/bd - 1 := by
          field_simp
          ring
        rw [harg]
        exact ceil_sub_one_step _ hxpos
      have hM' : ⌈(duration - (t + bd))/bd⌉₊ ≤ fuel := by omega
      have hunfold : beatLoopF (fuel + 1) duration bd t c =
          (round3 t :: (beatLoopF fuel duration bd (t + bd) (c + 1)).1,
           (if c % 4 = 0 then round3 t :: (beatLoopF fuel duration bd (t + bd) (c + 1)).2.1
            else (beatLoopF fuel duration bd (t + bd) (c + 1)).2.1),
           (if c % 4 = 0 then round3 t :: (beatLoopF fuel duration bd (t + bd) (c + 1)).2.2
            else (beatLoopF fuel duration bd (t + bd) (c + 1)).2.2)) := by
        simp only [beatLoopF, if_pos ht]
      rw [hunfold, ih (t + bd) (c + 1) hM', ← hstep]
      have hbeats : round3 t :: (List.range ⌈(duration - (t + bd))/bd⌉₊).map
            (fun k : ℕ => round3 ((t + bd) + (k : ℚ) * bd)) =
          (List.range (⌈(duration - (t + bd))/bd⌉₊ + 1)).map (fun k : ℕ => round3 (t + (k : ℚ) * bd)) := by
        rw [range_succ_map_shift _ (fun k : ℕ => round3 (t + (k : ℚ) * bd))
            (fun k : ℕ => round3 ((t + bd) + (k : ℚ) * bd))
            (fun k => by push_cast; ring_nf)]
        congr 1
        norm_num
      have hbars : (if c % 4 = 0 then
            round3 t :: ((List.range ⌈(duration - (t + bd))/bd⌉₊).filter
              (fun k => ((c + 1) + k) % 4 = 0)).map (fun k : ℕ => round3 ((t + bd) + (k : ℚ) * bd))
          else ((List.range ⌈(duration - (t + bd))/bd⌉₊).filter
              (fun k => ((c + 1) + k) % 4 = 0)).map (fun k : ℕ => round3 ((t + bd) + (k : ℚ) * bd))) =
          ((List.range (⌈(duration - (t + bd))/bd⌉₊ + 1)).filter
            (fun k => (c + k) % 4 = 0)).map (fun k : ℕ => round3 (t + (k : ℚ) * bd)) := by
        rw [range_succ_filter_map_shift _ (fun k => decide ((c + k) % 4 = 0))
            (fun k => decide (((c + 1) + k) % 4 = 0))
            (fun k : ℕ => round3 (t + (k : ℚ) * bd)) (fun k : ℕ => round3 ((t + bd) + (k : ℚ) * bd))
            (fun k => decide_eq_decide.mpr (by omega))
            (fun k => by push_cast; ring_nf)]
        by_cases hc : c % 4 = 0
        · rw [if_pos hc, if_pos (by simpa using hc), List.singleton_append]
          congr 2
          norm_num
        · rw [if_neg hc, if_neg (by simpa using hc), List.nil_append]
      exact Prod.ext hbeats (Prod.ext hbars hbars)
    · have hM0 : ⌈(duration - t)/bd⌉₊ = 0 := by
        rw [Nat.ceil_eq_zero]
        apply div_nonpos_of_nonpos_of_nonneg <;> linarith
      rw [hM0]
      simp only [beatLoopF, if_neg ht]
      rfl

/-- Closed form of `build_beat_grid` when the effective duration and BPM are
positive: with `bd = 60/bpm` and `N` the number of multiples of `bd` strictly
below the duration, the beats are the rounded multiples `round3 (k·bd)` for
`k < N`, and bars = downbeats keep exactly the indices divisible by 4. -/
theorem build_beat_grid_spec (da ba : NumArg)
    (hd : 0 < (parseGridArgs da ba).1) (hb : 0 < (parseGridArgs da ba).2) :
    (∀ k : ℕ, k < ⌈(parseGridArgs da ba).1 / (60 / (parseGridArgs da ba).2)⌉₊ ↔
      (k : ℚ) * (60 / (parseGridArgs da ba).2) < (parseGridArgs da ba).1) ∧
    build_beat_grid da ba =
      { beats := (List.range ⌈(parseGridArgs da ba).1 / (60 / (parseGridArgs da ba).2)⌉₊).map
          (fun k : ℕ => round3 ((k : ℚ) * (60 / (parseGridArgs da ba).2))),
        bars := ((List.range ⌈(parseGridArgs da ba).1 / (60 / (parseGridArgs da ba).2)⌉₊).filter
            (fun k => k % 4 = 0)).map
          (fun k : ℕ => round3 ((k : ℚ) * (60 / (parseGridArgs da ba).2))),
        downbeats := ((List.range ⌈(parseGridArgs da ba).1 / (60 / (parseGridArgs da ba).2)⌉₊).filter
            (fun k => k % 4 = 0)).map
          (fun k : ℕ => round3 ((k : ℚ) * (60 / (parseGridArgs da ba).2))),
        total_beats := ((List.range ⌈(parseGridArgs da ba).1 / (60 / (parseGridArgs da ba).2)⌉₊).map
          (fun k : ℕ => round3 ((k : ℚ) * (60 / (parseGridArgs da ba).2)))).length,
        total_bars := (((List.range ⌈(parseGridArgs da ba).1 / (60 / (parseGridArgs da ba).2)⌉₊).filter
            (fun k => k % 4 = 0)).map
          (fun k : ℕ => round3 ((k : ℚ) * (60 / (parseGridArgs da ba).2)))).length } := by
  have hbd : 0 < 60 / (parseGridArgs da ba).2 := div_pos (by norm_num) hb
  constructor
  · intro k
    rw [Nat.lt_ceil, lt_div_iff₀ hbd]
  · have hcond : ¬ ((parseGridArgs da ba).1 ≤ 0 ∨ (parseGridArgs da ba).2 ≤ 0) := by
      push_neg
      exact ⟨hd, hb⟩
    have hdd : (parseGridArgs da ba).1 / (60 / (parseGridArgs da ba).2) =
        (parseGridArgs da ba).1 * (parseGridArgs da ba).2 / 60 := by
      field_simp
    have hfuel : ⌈(parseGridArgs da ba).1 / (60 / (parseGridArgs da ba).2)⌉₊ ≤
        (⌊(parseGridArgs da ba).1 * (parseGridArgs da ba).2 / 60⌋).toNat + 2 := by
      rw [hdd, Int.floor_toNat]
      have := Nat.ceil_le_floor_add_one ((parseGridArgs da ba).1 * (parseGridArgs da ba).2 / 60)
      omega
    have hspec := beatLoopF_spec (parseGridArgs da ba).1 (60 / (parseGridArgs da ba).2) hbd
      ((⌊(parseGridArgs da ba).1 * (parseGridArgs da ba).2 / 60⌋).toNat + 2) 0 0
      (by rw [sub_zero]; exact hfuel)
    rw [sub_zero] at hspec
    simp only [build_beat_grid, if_neg hcond]
    rw [hspec]
    simp only [zero_add]

/-- C10 (counterexample): the stored beats are rounded to 3 decimals, so they
are not literally "the multiples of 60/bpm": at `duration = 1, bpm = 90` the
second beat is stored as `0.667`, which is not `2/3` and not a multiple of
`60/90` at all. -/
theorem c10_beat_grid_counterexample :
    (build_beat_grid (.num 1) (.num 90)).beats = [0, 667/1000] ∧
    (build_beat_grid (.num 1) (.num 90)).beats ≠ [0, 2/3] ∧
    (667/1000 : ℚ) ∈ (build_beat_grid (.num 1) (.num 90)).beats ∧
    (∀ k : ℕ, (k : ℚ) * (60/90) ≠ 667/1000) := by
  have hparse : parseGridArgs (.num 1) (.num 90) = (1, 90) := by
    norm_num [parseGridArgs]
  have hspec := build_beat_grid_spec (.num 1) (.num 90)
    (by rw [hparse]; norm_num) (by rw [hparse]; norm_num)
  rw [hparse] at hspec
  dsimp only at hspec
  have hN : ⌈(1 : ℚ) / (60 / 90)⌉₊ = 2 := by
    have h1' : 1 < ⌈(1 : ℚ) / (60 / 90)⌉₊ := (hspec.1 1).mpr (by norm_num)
    have h2' : ¬ (2 < ⌈(1 : ℚ) / (60 / 90)⌉₊) := fun hc => by
      have := (hspec.1 2).mp hc
      norm_num at this
    omega
  have hbeats : (build_beat_grid (.num 1) (.num 90)).beats = [0, 667/1000] := by
    rw [hspec.2]
    simp only [hN]
    norm_num [List.range_succ, round3]
  refine ⟨hbeats, by rw [hbeats]; intro hc; simp at hc; norm_num at hc,
    by rw [hbeats]; simp, ?_⟩
  intro k hk
  have hk' : (k : ℚ) * 2000 = 2001 := by
    field_simp at hk
    linarith
  have hk2 : ((k * 2000 : ℕ) : ℚ) = 2001 := by push_cast; linarith
  have : k * 2000 = 2001 := by exact_mod_cast hk2
  omega

/-- C10 (amended): `build_beat_grid` never fails: for `None`, truthy
non-numeric, zero or negative inputs the guards yield effective values
(`0` duration and default BPM `120`, or `(0, 120)` when `float()` raises), and
whenever the effective duration or BPM is `≤ 0` the grid is empty with zero
counts.  Otherwise the beats are the multiples of `60/bpm` strictly below the
duration, each stored rounded to 3 decimals, bars equals downbeats, both
consist of exactly every 4th beat starting at beat 0, and the totals are the
list lengths. -/
theorem c10_beat_grid_amended (da ba : NumArg) :
    ((parseGridArgs da ba).1 ≤ 0 ∨ (parseGridArgs da ba).2 ≤ 0 →
      build_beat_grid da ba =
        { beats := [], bars := [], downbeats := [], total_beats := 0, total_bars := 0 }) ∧
    (0 < (parseGridArgs da ba).1 → 0 < (parseGridArgs da ba).2 →
      ∃ N : ℕ,
        (∀ k : ℕ, k < N ↔ (k : ℚ) * (60 / (parseGridArgs da ba).2) < (parseGridArgs da ba).1) ∧
        (build_beat_grid da ba).beats =
          (List.range N).map (fun k : ℕ => round3 ((k : ℚ) * (60 / (parseGridArgs da ba).2))) ∧
        (build_beat_grid da ba).bars =
          ((List.range N).filter (fun k => k % 4 = 0)).map
            (fun k : ℕ => round3 ((k : ℚ) * (60 / (parseGridArgs da ba).2))) ∧
        (build_beat_grid da ba).downbeats = (build_beat_grid da ba).bars ∧
        (build_beat_grid da ba).total_beats = (build_beat_grid da ba).beats.length ∧
        (build_beat_grid da ba).total_bars = (build_beat_grid da ba).bars.length) := by
  constructor
  · intro hcond
    simp only [build_beat_grid, if_pos hcond]
  · intro hd hb
    obtain ⟨hchar, heq⟩ := build_beat_grid_spec da ba hd hb
    exact ⟨⌈(parseGridArgs da ba).1 / (60 / (parseGridArgs da ba).2)⌉₊, hchar,
      by rw [heq], by rw [heq], by rw [heq], by rw [heq], by rw [heq]⟩

/-- C10 (witness): the amended theorem at `duration = 1, bpm = 90` — two
beats, `[0, 0.667]`, one bar at beat 0. -/
theorem c10_beat_grid_witness :
    (0 : ℚ) < (parseGridArgs (.num 1) (.num 90)).1 ∧
    (0 : ℚ) < (parseGridArgs (.num 1) (.num 90)).2 ∧
    (build_beat_grid (.num 1) (.num 90)).beats = [0, 667/1000] ∧
    (build_beat_grid (.num 1) (.num 90)).bars = [0] ∧
    (build_beat_grid (.num 1) (.num 90)).total_beats = 2 := by
  have hparse : parseGridArgs (.num 1) (.num 90) = (1, 90) := by
    norm_num [parseGridArgs]
  obtain ⟨N, hchar, hbeats, hbars, hdown, htb, htbr⟩ :=
    (c10_beat_grid_amended (.num 1) (.num 90)).2
      (by rw [hparse]; norm_num) (by rw [hparse]; norm_num)
  rw [hparse] at hchar hbeats hbars
  dsimp only at hchar hbeats hbars
  have hN : N = 2 := by
    have h1' : 1 < N := (hchar 1).mpr (by norm_num)
    have h2' : ¬ (2 < N) := fun hc => by
      have := (hchar 2).mp hc
      norm_num at this
    omega
  subst hN
  have hb2 : (build_beat_grid (.num 1) (.num 90)).beats = [0, 667/1000] := by
    rw [hbeats]
    norm_num [List.range_succ, round3]
  have hbr2 : (build_beat_grid (.num 1) (.num 90)).bars = [0] := by
    rw [hbars]
    norm_num [List.range_succ, List.filter_cons, round3]
  refine ⟨by rw [hparse]; norm_num, by rw [hparse]; norm_num, hb2, hbr2, ?_⟩
  rw [htb, hb2]
  rfl

/-! ### C8 — tighten idempotence -/

/-- Relation holding between consecutive shots after the first tighten pass:
no overlap, and the later shot is non-degenerate. -/
def adjOk (x y : Shot) : Prop := x.end_ ≤ y.start ∧ y.start ≤ y.end_

/-- Relation holding between consecutive shots after the second tighten pass:
the gap is either fully closed or wider than 0.06 s. -/
def gapOk (x y : Shot) : Prop := x.end_ = y.start ∨ y.start - x.end_ > 3/50

/-- Comparison of shots by start time. -/
def leStart (x y : Shot) : Prop := x.start ≤ y.start

/-- Strict comparison of shots by start time. -/
def ltStart (x y : Shot) : Prop := x.start < y.start

instance : DecidableRel leStart := fun a b => inferInstanceAs (Decidable (a.start ≤ b.start))

instance : IsTrans Shot leStart := ⟨fun _ _ _ hab hbc => le_trans hab hbc⟩

instance : IsTotal Shot leStart := ⟨fun a b => le_total a.start b.start⟩

instance : IsAntisymm Shot ltStart := ⟨fun _ _ hab hba => absurd (lt_trans hab hba) (lt_irrefl _)⟩

/-- The first pass leaves the head shot in place. -/
theorem tightenPass1_cons (a : Shot) (rest : List Shot) :
    ∃ t, tightenPass1 (a :: rest) = a :: t := by
  cases rest with
  | nil => exact ⟨[], by simp [tightenPass1]⟩
  | cons b rest' => exact ⟨_, by rw [tightenPass1]⟩

/-- After the first pass, consecutive shots never overlap and every shot but
possibly the first is non-degenerate. -/
theorem chain_adjOk_tightenPass1 (l : List Shot) : List.Chain' adjOk (tightenPass1 l) := by
  induction l using tightenPass1.induct with
  | case1 => simp [tightenPass1]
  | case2 a => simp [tightenPass1]
  | case3 a b rest b1 b2 ih =>
    rw [tightenPass1]
    change List.Chain' adjOk (a :: tightenPass1 (b2 :: rest))
    obtain ⟨t, ht⟩ := tightenPass1_cons b2 rest
    rw [ht]
    rw [ht] at ih
    refine List.chain'_cons.mpr ⟨?_, ih⟩
    constructor
    · show a.end_ ≤ b2.start
      have hb1 : a.end_ ≤ b1.start := by
        show a.end_ ≤ (if b.start < a.end_ then { b with start := a.end_ } else b).start
        by_cases hb : b.start < a.end_
        · rw [if_pos hb]
        · rw [if_neg hb]
          exact le_of_not_lt hb
      show a.end_ ≤ (if b1.end_ < b1.start then { b1 with end_ := b1.start + 1/10 } else b1).start
      by_cases he : b1.end_ < b1.start
      · rw [if_pos he]
        exact hb1
      · rw [if_neg he]
        exact hb1
    · show b2.start ≤ b2.end_
      show (if b1.end_ < b1.start then { b1 with end_ := b1.start + 1/10 } else b1).start ≤
        (if b1.end_ < b1.start then { b1 with end_ := b1.start + 1/10 } else b1).end_
      by_cases he : b1.end_ < b1.start
      · rw [if_pos he]
        show b1.start ≤ b1.start + 1/10
        linarith
      · rw [if_neg he]
        exact le_of_not_lt he

/-- An `adjOk` chain whose head is non-degenerate is sorted by start. -/
theorem chain_adjOk_sorted (l : List Shot) (hl : List.Chain' adjOk l)
    (hhead : ∀ x, l.head? = some x → x.start ≤ x.end_) : List.Chain' leStart l := by
  induction l with
  | nil => simp
  | cons x t ih =>
    cases t with
    | nil => simp
    | cons y t' =>
      obtain ⟨hxy, hrest⟩ := List.chain'_cons.mp hl
      refine List.chain'_cons.mpr ⟨?_, ?_⟩
      · exact le_trans (hhead x rfl) hxy.1
      · exact ih hrest (fun z hz => by
          rw [List.head?_cons] at hz
          obtain rfl : y = z := by injection hz
          exact hxy.2)

/-- The first pass of tighten keeps a start-sorted bucket start-sorted. -/
theorem sorted_tightenPass1 (l : List Shot) (hl : List.Chain' leStart l) :
    List.Chain' leStart (tightenPass1 l) := by
  cases l with
  | nil => simp [tightenPass1]
  | cons a rest =>
    cases rest with
    | nil => simp [tightenPass1]
    | cons b rest' =>
      rw [tightenPass1]
      set b1 := if b.start < a.end_ then { b with start := a.end_ } else b with hb1
      set b2 := if b1.end_ < b1.start then { b1 with end_ := b1.start + 1/10 } else b1 with hb2
      obtain ⟨t, ht⟩ := tightenPass1_cons b2 rest'
      rw [ht]
      have hadj : List.Chain' adjOk (b2 :: t) := ht ▸ chain_adjOk_tightenPass1 (b2 :: rest')
      have hb2se : b2.start ≤ b2.end_ := by
        rw [hb2]
        by_cases he : b1.end_ < b1.start
        · rw [if_pos he]
          show b1.start ≤ b1.start + 1/10
          linarith
        · rw [if_neg he]
          exact le_of_not_lt he
      have htail : List.Chain' leStart (b2 :: t) :=
        chain_adjOk_sorted _ hadj (fun x hx => by
          rw [List.head?_cons] at hx
          obtain rfl : b2 = x := by injection hx
          exact hb2se)
      refine List.chain'_cons.mpr ⟨?_, htail⟩
      have hab : a.start ≤ b.start := (List.chain'_cons.mp hl).1
      have hb1b : b.start ≤ b1.start := by
        rw [hb1]
        by_cases hp : b.start < a.end_
        · rw [if_pos hp]
          exact le_of_lt hp
        · rw [if_neg hp]
      have hb2b1 : b2.start = b1.start := by
        rw [hb2]
        by_cases he : b1.end_ < b1.start
        · rw [if_pos he]
        · rw [if_neg he]
      show a.start ≤ b2.start
      rw [hb2b1]
      exact le_trans hab hb1b

/-- The second pass rewrites only the end of the head shot. -/
theorem tightenPass2_cons (a : Shot) (rest : List Shot) :
    ∃ a' t, tightenPass2 (a :: rest) = a' :: t ∧ a'.start = a.start ∧
      a'.shot_id = a.shot_id ∧ a'.sequence_id = a.sequence_id := by
  cases rest with
  | nil => exact ⟨a, [], rfl, rfl, rfl, rfl⟩
  | cons b rest' =>
    refine ⟨if b.start - a.end_ ≤ 3/50 then { a with end_ := b.start } else a,
      tightenPass2 (b :: rest'), rfl, ?_, ?_, ?_⟩ <;>
      (by_cases hgap : b.start - a.end_ ≤ 3/50
       · rw [if_pos hgap]
       · rw [if_neg hgap])

/-- The second pass keeps a start-sorted bucket start-sorted (it never touches
start times). -/
theorem sorted_tightenPass2 (l : List Shot) (hl : List.Chain' leStart l) :
    List.Chain' leStart (tightenPass2 l) := by
  induction l with
  | nil => simp [tightenPass2]
  | cons a rest ih =>
    cases rest with
    | nil => simp [tightenPass2]
    | cons b rest' =>
      obtain ⟨hab, htail⟩ := List.chain'_cons.mp hl
      obtain ⟨b', t, hbt, hbs, _, _⟩ := tightenPass2_cons b rest'
      rw [tightenPass2, hbt]
      have hchain := ih htail
      rw [hbt] at hchain
      refine List.chain'_cons.mpr ⟨?_, hchain⟩
      show (if b.start - a.end_ ≤ 3/50 then { a with end_ := b.start } else a).start ≤ b'.start
      rw [hbs]
      by_cases hgap : b.start - a.end_ ≤ 3/50
      · rw [if_pos hgap]
        exact hab
      · rw [if_neg hgap]
        exact hab

/-- The second pass preserves the no-overlap invariant of the first pass. -/
theorem chain_adjOk_tightenPass2 (l : List Shot) (hl : List.Chain' adjOk l) :
    List.Chain' adjOk (tightenPass2 l) := by
  induction l with
  | nil => simp [tightenPass2]
  | cons a rest ih =>
    cases rest with
    | nil => simp [tightenPass2]
    | cons b rest' =>
      obtain ⟨hab, htail⟩ := List.chain'_cons.mp hl
      have hchain := ih htail
      rw [tightenPass2]
      cases rest' with
      | nil =>
        refine List.chain'_cons.mpr ⟨?_, by simp [tightenPass2]⟩
        constructor
        · show (if b.start - a.end_ ≤ 3/50 then { a with end_ := b.start } else a).end_ ≤ b.start
          by_cases hgap : b.start - a.end_ ≤ 3/50
          · rw [if_pos hgap]
          · rw [if_neg hgap]
            exact hab.1
        · exact hab.2
      | cons c rest'' =>
        obtain ⟨hbc, _⟩ := List.chain'_cons.mp htail
        rw [tightenPass2]
        rw [tightenPass2] at hchain
        refine List.chain'_cons.mpr ⟨?_, hchain⟩
        constructor
        · show (if b.start - a.end_ ≤ 3/50 then { a with end_ := b.start } else a).end_ ≤
            (if c.start - b.end_ ≤ 3/50 then { b with end_ := c.start } else b).start
          have hbstart : (if c.start - b.end_ ≤ 3/50 then { b with end_ := c.start } else b).start
              = b.start := by
            by_cases hg : c.start - b.end_ ≤ 3/50
            · rw [if_pos hg]
            · rw [if_neg hg]
          rw [hbstart]
          by_cases hgap : b.start - a.end_ ≤ 3/50
          · rw [if_pos hgap]
          · rw [if_neg hgap]
            exact hab.1
        · show (if c.start - b.end_ ≤ 3/50 then { b with end_ := c.start } else b).start ≤
            (if c.start - b.end_ ≤ 3/50 then { b with end_ := c.start } else b).end_
          by_cases hg : c.start - b.end_ ≤ 3/50
          · rw [if_pos hg]
            show b.start ≤ c.start
            exact le_trans hab.2 hbc.1
          · rw [if_neg hg]
            exact hab.2

/-- After the second pass every residual gap is closed or wider than 0.06 s. -/
theorem chain_gapOk_tightenPass2 (l : List Shot) : List.Chain' gapOk (tightenPass2 l) := by
  induction l with
  | nil => simp [tightenPass2]
  | cons a rest ih =>
    cases rest with
    | nil => simp [tightenPass2]
    | cons b rest' =>
      obtain ⟨b', t, hbt, hbs, _, _⟩ := tightenPass2_cons b rest'
      rw [tightenPass2, hbt]
      rw [hbt] at ih
      refine List.chain'_cons.mpr ⟨?_, ih⟩
      show gapOk (if b.start - a.end_ ≤ 3/50 then { a with end_ := b.start } else a) b'
      by_cases hgap : b.start - a.end_ ≤ 3/50
      · rw [if_pos hgap]
        exact Or.inl (by rw [hbs])
      · rw [if_neg hgap]
        refine Or.inr ?_
        rw [hbs]
        linarith [not_le.mp hgap]

/-- The first pass is the identity on buckets already satisfying its
invariant. -/
theorem tightenPass1_fix (l : List Shot) (hl : List.Chain' adjOk l) : tightenPass1 l = l := by
  induction l using tightenPass1.induct with
  | case1 => simp [tightenPass1]
  | case2 a => simp [tightenPass1]
  | case3 a b rest b1 b2 ih =>
    obtain ⟨hab, htail⟩ := List.chain'_cons.mp hl
    have hb1 : b1 = b := if_neg (not_lt.mpr hab.1)
    have hb2 : b2 = b := by
      rw [show b2 = if b1.end_ < b1.start then { b1 with end_ := b1.start + 1/10 } else b1 from rfl,
        hb1, if_neg (not_lt.mpr hab.2)]
    rw [tightenPass1]
    change (a :: tightenPass1 (b2 :: rest)) = a :: b :: rest
    rw [hb2] at ih ⊢
    rw [ih htail]

/-- The second pass is the identity on buckets already satisfying its gap
invariant. -/
theorem tightenPass2_fix (l : List Shot) (hl : List.Chain' gapOk l) : tightenPass2 l = l := by
  induction l with
  | nil => rfl
  | cons a rest ih =>
    cases rest with
    | nil => rfl
    | cons b rest' =>
      obtain ⟨hab, htail⟩ := List.chain'_cons.mp hl
      rw [tightenPass2, ih htail]
      congr 1
      rcases hab with heq | hgt
      · rw [if_pos (by rw [← heq]; linarith)]
        rw [← heq]
      · rw [if_neg (by linarith)]

/-- Every processed tighten bucket is sorted by start. -/
theorem sorted_tightenGroup (l : List Shot) : List.Chain' leStart (tightenGroup l) := by
  have hsorted : List.Sorted leStart (List.insertionSort leStart l) :=
    List.sorted_insertionSort leStart l
  have hchain : List.Chain' leStart (sortShotsByStart l) :=
    List.chain'_iff_pairwise.mpr hsorted
  exact sorted_tightenPass2 _ (sorted_tightenPass1 _ hchain)

/-- A start-sorted list with pairwise-distinct starts is strictly sorted. -/
theorem strict_sorted_of_chain_nodup (l : List Shot) (hs : List.Chain' leStart l)
    (hnd : (l.map Shot.start).Nodup) : List.Sorted ltStart l := by
  have hp : l.Pairwise leStart := List.chain'_iff_pairwise.mp hs
  have hne : l.Pairwise (fun a b : Shot => a.start ≠ b.start) := List.pairwise_map.mp hnd
  exact (hp.and hne).imp (fun h => lt_of_le_of_ne h.1 h.2)

/-- A permutation of a processed bucket with pairwise-distinct starts sorts
back to exactly that bucket (insertion sort recovers the unique sorted
order). -/
theorem sortShots_eq_of_perm (l' σ : List Shot) (hperm : List.Perm l' σ)
    (hsorted : List.Chain' leStart σ) (hnd : (σ.map Shot.start).Nodup) :
    sortShotsByStart l' = σ := by
  have h1 : List.Perm (sortShotsByStart l') σ := (List.perm_insertionSort _ l').trans hperm
  have hnd1 : ((sortShotsByStart l').map Shot.start).Nodup :=
    (List.Perm.nodup_iff (h1.map Shot.start)).mpr hnd
  have hs1 : List.Chain' leStart (sortShotsByStart l') :=
    List.chain'_iff_pairwise.mpr (List.sorted_insertionSort leStart l')
  exact List.eq_of_perm_of_sorted h1
    (strict_sorted_of_chain_nodup _ hs1 hnd1)
    (strict_sorted_of_chain_nodup _ hsorted hnd)

/-- Fixpoint property of a processed bucket: tightening any permutation of it
(with pairwise-distinct starts) returns the bucket itself. -/
theorem tightenGroup_fix (l l' : List Shot) (hperm : List.Perm l' (tightenGroup l))
    (hnd : ((tightenGroup l).map Shot.start).Nodup) :
    tightenGroup l' = tightenGroup l := by
  have hsort : sortShotsByStart l' = tightenGroup l :=
    sortShots_eq_of_perm l' (tightenGroup l) hperm (sorted_tightenGroup l) hnd
  have hadj : List.Chain' adjOk (tightenGroup l) :=
    chain_adjOk_tightenPass2 _ (chain_adjOk_tightenPass1 (sortShotsByStart l))
  have hgap : List.Chain' gapOk (tightenGroup l) := chain_gapOk_tightenPass2 _
  show tightenPass2 (tightenPass1 (sortShotsByStart l')) = tightenGroup l
  rw [hsort, tightenPass1_fix _ hadj, tightenPass2_fix _ hgap]

/-- The identity of a shot as its pair of ids; the tighten passes only touch
start and end, so these pairs pass through unchanged. -/
def idPair (s : Shot) : String × String := (s.shot_id, s.sequence_id)

/-- The first pass keeps the ids of every position. -/
theorem idPair_tightenPass1 (l : List Shot) :
    (tightenPass1 l).map idPair = l.map idPair := by
  induction l using tightenPass1.induct with
  | case1 => simp [tightenPass1]
  | case2 a => simp [tightenPass1]
  | case3 a b rest b1 b2 ih =>
    rw [tightenPass1]
    change (a :: tightenPass1 (b2 :: rest)).map idPair = _
    rw [List.map_cons, ih]
    have hidb : idPair b2 = idPair b := by
      have h1 : idPair b1 = idPair b := by
        show idPair (if b.start < a.end_ then { b with start := a.end_ } else b) = idPair b
        by_cases hp : b.start < a.end_
        · rw [if_pos hp]
          rfl
        · rw [if_neg hp]
      show idPair (if b1.end_ < b1.start then { b1 with end_ := b1.start + 1/10 } else b1) = idPair b
      by_cases he : b1.end_ < b1.start
      · rw [if_pos he]
        exact h1
      · rw [if_neg he]
        exact h1
    rw [List.map_cons, List.map_cons, hidb, List.map_cons]

/-- The second pass keeps the ids of every position. -/
theorem idPair_tightenPass2 (l : List Shot) :
    (tightenPass2 l).map idPair = l.map idPair := by
  induction l with
  | nil => rfl
  | cons a rest ih =>
    cases rest with
    | nil => rfl
    | cons b rest' =>
      rw [tightenPass2, List.map_cons, ih, List.map_cons, List.map_cons]
      congr 1
      by_cases hgap : b.start - a.end_ ≤ 3/50
      · rw [if_pos hgap]
        rfl
      · rw [if_neg hgap]

/-- A processed bucket carries the same multiset of id pairs as its input. -/
theorem idPair_tightenGroup_perm (l : List Shot) :
    List.Perm ((tightenGroup l).map idPair) (l.map idPair) := by
  show List.Perm ((tightenPass2 (tightenPass1 (sortShotsByStart l))).map idPair) _
  rw [idPair_tightenPass2, idPair_tightenPass1]
  exact (List.perm_insertionSort _ l).map idPair

/-- Every element of a processed bucket inherits both ids from some input
shot. -/
theorem mem_tightenGroup_ids (l : List Shot) (t : Shot) (ht : t ∈ tightenGroup l) :
    ∃ u ∈ l, u.shot_id = t.shot_id ∧ u.sequence_id = t.sequence_id := by
  have hmem : idPair t ∈ (tightenGroup l).map idPair := List.mem_map_of_mem idPair ht
  have hmem2 : idPair t ∈ l.map idPair := (idPair_tightenGroup_perm l).mem_iff.mp hmem
  obtain ⟨u, hu, huid⟩ := List.mem_map.mp hmem2
  exact ⟨u, hu, congrArg Prod.fst huid, congrArg Prod.snd huid⟩

/-- Erasing an element that fails the predicate does not change `find?`. -/
theorem find?_erase {α : Type} [DecidableEq α] (p : α → Bool) (l : List α) (t : α)
    (ht : t ∈ l) (hpt : p t = false) : List.find? p (l.erase t) = List.find? p l := by
  induction l with
  | nil => cases ht
  | cons x l ih =>
    by_cases hx : x = t
    · subst hx
      rw [List.erase_cons_head, List.find?_cons_of_neg _ (by simp [hpt])]
    · rw [List.erase_cons_tail (by simp [hx])]
      have htl : t ∈ l := by
        rcases List.mem_cons.mp ht with h | h
        · exact absurd h.symm hx
        · exact h
      cases hpx : p x with
      | true =>
        rw [List.find?_cons_of_pos _ hpx, List.find?_cons_of_pos _ hpx]
      | false =>
        rw [List.find?_cons_of_neg _ (by simp [hpx]), List.find?_cons_of_neg _ (by simp [hpx])]
        exact ih htl

/-- Re-assembling a bucket in template order: looking each template shot's id
up in a list `σ` carrying the same ids (without duplicates) permutes `σ`. -/
theorem map_lookup_perm :
    ∀ (m σ : List Shot),
      List.Perm (σ.map Shot.shot_id) (m.map Shot.shot_id) →
      (m.map Shot.shot_id).Nodup →
      List.Perm
        (m.map (fun s => ((σ.find? (fun t => t.shot_id = s.shot_id)).getD s))) σ := by
  intro m
  induction m with
  | nil =>
    intro σ hperm _
    have hσ : σ.map Shot.shot_id = [] := hperm.eq_nil
    have : σ = [] := List.map_eq_nil_iff.mp hσ
    rw [this]
    rfl
  | cons s m ih =>
    intro σ hperm hnd
    have hmem : s.shot_id ∈ σ.map Shot.shot_id := hperm.mem_iff.mpr (by simp)
    obtain ⟨t0, ht0σ, ht0s⟩ := List.mem_map.mp hmem
    have hsome : (σ.find? (fun t => t.shot_id = s.shot_id)).isSome :=
      List.find?_isSome.mpr ⟨t0, ht0σ, by simp [ht0s]⟩
    obtain ⟨t, hfind⟩ := Option.isSome_iff_exists.mp hsome
    have htmem : t ∈ σ := List.mem_of_find?_eq_some hfind
    have htid : t.shot_id = s.shot_id := by
      have := List.find?_some hfind
      simpa using this
    rw [List.map_cons, hfind]
    simp only [Option.getD_some]
    have hnd' : (m.map Shot.shot_id).Nodup := (List.nodup_cons.mp (by simpa using hnd)).2
    have hsid_not : s.shot_id ∉ m.map Shot.shot_id :=
      (List.nodup_cons.mp (by simpa using hnd)).1
    have htail_eq : m.map (fun s' => ((σ.find? (fun t' => t'.shot_id = s'.shot_id)).getD s')) =
        m.map (fun s' => (((σ.erase t).find? (fun t' => t'.shot_id = s'.shot_id)).getD s')) := by
      refine List.map_congr_left (fun s' hs' => ?_)
      have hne : ¬ (t.shot_id = s'.shot_id) := by
        intro hcontra
        exact hsid_not (htid ▸ hcontra ▸ List.mem_map_of_mem Shot.shot_id hs')
      rw [find?_erase _ σ t htmem (by simp [hne])]
    rw [htail_eq]
    have hσperm : List.Perm σ (t :: σ.erase t) := List.perm_cons_erase htmem
    have hperm' : List.Perm ((σ.erase t).map Shot.shot_id) (m.map Shot.shot_id) := by
      have h2 : List.Perm (σ.map Shot.shot_id) (t.shot_id :: (σ.erase t).map Shot.shot_id) := by
        simpa using hσperm.map Shot.shot_id
      have h3 : List.Perm (t.shot_id :: (σ.erase t).map Shot.shot_id)
          (s.shot_id :: m.map Shot.shot_id) := by
        refine h2.symm.trans (hperm.trans ?_)
        rw [List.map_cons]
      rw [htid] at h3
      exact h3.cons_inv
    have htail := ih (σ.erase t) hperm' hnd'
    exact (htail.cons t).trans hσperm.symm

/-- The per-shot update performed by `api_tighten`: the shot's values after
its bucket was sorted and repaired, located by `shot_id`. -/
def tightenUpd (shots : List Shot) (s : Shot) : Shot :=
  match (tightenGroup (shots.filter (fun t => t.sequence_id = s.sequence_id))).find?
      (fun t => t.shot_id = s.shot_id) with
  | some t => t
  | none => s

/-- `api_tighten` is the pointwise bucket update over the original order. -/
theorem api_tighten_eq_map (shots : List Shot) :
    api_tighten shots = shots.map (tightenUpd shots) := rfl

/-- The update never changes a shot's ids. -/
theorem tightenUpd_ids (shots : List Shot) (s : Shot) :
    (tightenUpd shots s).shot_id = s.shot_id ∧
    (tightenUpd shots s).sequence_id = s.sequence_id := by
  unfold tightenUpd
  cases hfind : (tightenGroup (shots.filter (fun t => t.sequence_id = s.sequence_id))).find?
      (fun t => t.shot_id = s.shot_id) with
  | none => exact ⟨rfl, rfl⟩
  | some t =>
    have htid : t.shot_id = s.shot_id := by
      have := List.find?_some hfind
      simpa using this
    have htmem := List.mem_of_find?_eq_some hfind
    obtain ⟨u, hu, _, huseq⟩ := mem_tightenGroup_ids _ t htmem
    have huq : u.sequence_id = s.sequence_id := by
      have := (List.mem_filter.mp hu).2
      simpa using this
    exact ⟨htid, by rw [← huseq, huq]⟩

/-- Filtering the tightened state by sequence recovers the bucket update of
the filtered originals. -/
theorem filter_api_tighten (shots : List Shot) (q : String) :
    (api_tighten shots).filter (fun t => t.sequence_id = q) =
      (shots.filter (fun t => t.sequence_id = q)).map (tightenUpd shots) := by
  rw [api_tighten_eq_map, List.filter_map]
  congr 1
  refine List.filter_congr (fun s _ => ?_)
  simp [Function.comp, (tightenUpd_ids shots s).2]

/-- Updating a filtered bucket's shots permutes the processed bucket. -/
theorem filtered_map_upd_perm (shots : List Shot) (q : String)
    (hid : (shots.map Shot.shot_id).Nodup) :
    List.Perm ((shots.filter (fun t => t.sequence_id = q)).map (tightenUpd shots))
      (tightenGroup (shots.filter (fun t => t.sequence_id = q))) := by
  set m := shots.filter (fun t => t.sequence_id = q) with hm
  have hml : m.map (tightenUpd shots) =
      m.map (fun s => (((tightenGroup m).find? (fun t => t.shot_id = s.shot_id)).getD s)) := by
    refine List.map_congr_left (fun s hs => ?_)
    have hseq : s.sequence_id = q := by
      simpa using (List.mem_filter.mp hs).2
    show tightenUpd shots s = _
    unfold tightenUpd
    have hfe : shots.filter (fun t => t.sequence_id = s.sequence_id) = m := by
      rw [hm]
      simp only [hseq]
    rw [hfe]
    cases (tightenGroup m).find? (fun t => t.shot_id = s.shot_id) <;> rfl
  rw [hml]
  have hperm : List.Perm ((tightenGroup m).map Shot.shot_id) (m.map Shot.shot_id) := by
    have h := (idPair_tightenGroup_perm m).map Prod.fst
    simpa [List.map_map, Function.comp, idPair] using h
  have hndm : (m.map Shot.shot_id).Nodup := by
    have hsub : List.Sublist m shots := List.filter_sublist shots
    exact List.Nodup.sublist (hsub.map Shot.shot_id) hid
  exact map_lookup_perm m (tightenGroup m) hperm hndm

/-- C8 (amended): tighten is idempotent on every state whose shot ids are
unique and whose tightened buckets have pairwise-distinct start times — in
particular whenever one application of tighten leaves no two shots of a
sequence starting at the same instant, a second application changes nothing.
(The counterexample shows idempotence fails when a tightened bucket contains
tied starts: the stable re-sort can then order the bucket differently.) -/
theorem c8_tighten_idempotent_amended (shots : List Shot) (hne : shots ≠ [])
    (hid : (shots.map Shot.shot_id).Nodup)
    (hds : ∀ q ∈ shots.map Shot.sequence_id,
      ((tightenGroup (shots.filter (fun t => t.sequence_id = q))).map Shot.start).Nodup) :
    api_tighten (api_tighten shots) = api_tighten shots := by
  have key : ∀ s' ∈ api_tighten shots, tightenUpd (api_tighten shots) s' = s' := by
    intro s' hs'
    rw [api_tighten_eq_map] at hs'
    obtain ⟨s, hs, hupd⟩ := List.mem_map.mp hs'
    have hqmem : s.sequence_id ∈ shots.map Shot.sequence_id :=
      List.mem_map_of_mem Shot.sequence_id hs
    have hsm : s ∈ shots.filter (fun t => t.sequence_id = s.sequence_id) :=
      List.mem_filter.mpr ⟨hs, by simp⟩
    have hpermG : List.Perm
        ((tightenGroup (shots.filter (fun t => t.sequence_id = s.sequence_id))).map Shot.shot_id)
        ((shots.filter (fun t => t.sequence_id = s.sequence_id)).map Shot.shot_id) := by
      have h := (idPair_tightenGroup_perm (shots.filter
        (fun t => t.sequence_id = s.sequence_id))).map Prod.fst
      simpa [List.map_map, Function.comp, idPair] using h
    have hmemid : s.shot_id ∈
        (tightenGroup (shots.filter (fun t => t.sequence_id = s.sequence_id))).map Shot.shot_id :=
      hpermG.mem_iff.mpr (List.mem_map_of_mem Shot.shot_id hsm)
    have hsome : ((tightenGroup (shots.filter (fun t => t.sequence_id = s.sequence_id))).find?
        (fun t => t.shot_id = s.shot_id)).isSome := by
      refine List.find?_isSome.mpr ?_
      obtain ⟨t0, ht0, hid0⟩ := List.mem_map.mp hmemid
      exact ⟨t0, ht0, by simp [hid0]⟩
    obtain ⟨t, hfind⟩ := Option.isSome_iff_exists.mp hsome
    have hst : s' = t := by
      rw [← hupd]
      unfold tightenUpd
      rw [hfind]
    have htG := List.mem_of_find?_eq_some hfind
    have htid : t.shot_id = s.shot_id := by
      simpa using List.find?_some hfind
    have htseq : t.sequence_id = s.sequence_id := by
      obtain ⟨u, hu, _, huseq⟩ := mem_tightenGroup_ids _ t htG
      have huq : u.sequence_id = s.sequence_id := by
        simpa using (List.mem_filter.mp hu).2
      rw [← huseq, huq]
    have hstepC : tightenGroup
        ((api_tighten shots).filter (fun u => u.sequence_id = s.sequence_id)) =
        tightenGroup (shots.filter (fun u => u.sequence_id = s.sequence_id)) := by
      have hflt := filter_api_tighten shots s.sequence_id
      have hperm2 := filtered_map_upd_perm shots s.sequence_id hid
      have hpermT : List.Perm
          ((api_tighten shots).filter (fun u => u.sequence_id = s.sequence_id))
          (tightenGroup (shots.filter (fun u => u.sequence_id = s.sequence_id))) := by
        rw [hflt]
        exact hperm2
      exact tightenGroup_fix _ _ hpermT (hds _ hqmem)
    rw [hst]
    unfold tightenUpd
    simp only [htseq, htid]
    rw [hstepC, hfind]
  calc api_tighten (api_tighten shots)
      = (api_tighten shots).map (tightenUpd (api_tighten shots)) := rfl
    _ = (api_tighten shots).map id := List.map_congr_left key
    _ = api_tighten shots := List.map_id _

/-- The last shot of the counterexample sequence: runs from 2 to 9. -/
def cexR : Shot := { shot_id := "seq_01_sh03", sequence_id := "seq_01", start := 2, end_ := 9 }

/-- The middle shot of the counterexample sequence: overlaps into `cexR`. -/
def cexQ : Shot := { shot_id := "seq_01_sh02", sequence_id := "seq_01", start := 1, end_ := 2 }

/-- The first shot of the counterexample sequence. -/
def cexP : Shot := { shot_id := "seq_01_sh01", sequence_id := "seq_01", start := 0, end_ := 2 }

/-- A state whose stored shot order (`[cexR, cexQ, cexP]`) differs from the
sorted order — exactly what a dict-grouped, in-place-sorted Python list
allows. -/
def cexShots : List Shot := [cexR, cexQ, cexP]

/-- C8 (counterexample): tighten is not idempotent.  One application pushes
`cexQ` to the zero-length slot `[2, 2]`, tying its start with `cexR`'s.  The
second application re-sorts the stored order `[cexR, cexQ, cexP]`, and the
stable sort now puts `cexR` before the tied `cexQ`, so `cexQ` is pushed again
— to `[9, 9.1]`.  The shot start/end times after two applications differ from
those after one. -/
theorem c8_tighten_counterexample :
    api_tighten cexShots = [cexR, { cexQ with start := 2 }, cexP] ∧
    api_tighten (api_tighten cexShots) =
      [cexR, { cexQ with start := 9, end_ := 91/10 }, cexP] ∧
    api_tighten (api_tighten cexShots) ≠ api_tighten cexShots := by
  have h1 : api_tighten cexShots = [cexR, { cexQ with start := 2 }, cexP] := by
    norm_num [api_tighten, cexShots, cexR, cexQ, cexP, tightenGroup, sortShotsByStart,
      List.insertionSort, List.orderedInsert, tightenPass1, tightenPass2, List.find?,
      List.filter]
    simp +decide
  have h2 : api_tighten (api_tighten cexShots) =
      [cexR, { cexQ with start := 9, end_ := 91/10 }, cexP] := by
    rw [h1]
    norm_num [api_tighten, cexShots, cexR, cexQ, cexP, tightenGroup, sortShotsByStart,
      List.insertionSort, List.orderedInsert, tightenPass1, tightenPass2, List.find?,
      List.filter]
    simp +decide
  refine ⟨h1, h2, ?_⟩
  rw [h2, h1]
  intro hcontra
  simp only [List.cons.injEq] at hcontra
  have h9 : (9 : ℚ) = 2 := congrArg Shot.start hcontra.2.1
  norm_num at h9

/-- First shot of the witness state for tighten idempotence. -/
def c8wA : Shot := { shot_id := "seq_01_sh01", sequence_id := "seq_01", start := 0, end_ := 2 }

/-- Second shot of the witness state, adjacent to the first. -/
def c8wB : Shot := { shot_id := "seq_01_sh02", sequence_id := "seq_01", start := 2, end_ := 4 }

/-- The witness state: two shots of one sequence with distinct starts. -/
def c8wShots : List Shot := [c8wA, c8wB]

/-- C8 (witness): the amended idempotence theorem at a concrete two-shot
state whose tightened bucket has distinct starts. -/
theorem c8_tighten_idempotent_witness :
    api_tighten (api_tighten c8wShots) = api_tighten c8wShots := by
  apply c8_tighten_idempotent_amended
  · simp [c8wShots]
  · decide
  · intro q hq
    have hq' : q = "seq_01" := by
      simpa [c8wShots, c8wA, c8wB] using hq
    subst hq'
    have heval : tightenGroup (c8wShots.filter (fun t => t.sequence_id = "seq_01")) =
        [c8wA, c8wB] := by
      norm_num [c8wShots, c8wA, c8wB, tightenGroup, sortShotsByStart, List.insertionSort,
        List.orderedInsert, tightenPass1, tightenPass2, List.filter]
    rw [heval]
    norm_num [c8wA, c8wB]

end FrePathe
